import Mathlib

/-!
Verification development for the aistore storage target.

This file gives a shallow embedding, in Lean 4, of the parts of the
repository that the frozen claims are about:

* `src/cluster/lcopy.go` — LOM (local object metadata) copy management:
  `delCopyMd`, `AddCopy`, `DelCopies`, `DelAllCopies`, `DelExtraCopies`,
  `syncMetaWithCopies`, `LBGet`/`leastUtilCopy`, `LeastUtilNoCopy`,
  `haveMpath`, `ToMpath`, `Copy`, `Copy2FQN`.
* `src/transport/recv.go` — the framed stream parser `iterator.next`,
  the receive loop `handler.receive` with its per-session statistics and
  old-session garbage collection, and the header field extractors.
* `src/ais/tgtasync.go` — the `doAsync` start dispatcher for the
  `list-objects` task (renew / increment-pending / wait, with its single
  retry on `ErrGone`).

Go maps are embedded as association lists together with explicit
delete/insert/lookup operations; Go `int64` values are embedded as `Int`
(no claim in scope exercises 64-bit wraparound of these counters);
byte buffers are lists of `Nat` (each byte `< 256` where it matters).
Filesystem and task effects (persisting metadata to a copy, unlinking a
file, renewing an xaction, waiting for a task response) happen outside
the translated functions in Go; they are passed in as explicit oracle
parameters so that each translated function is a pure function of its
inputs and of those oracles.
-/

set_option linter.unusedVariables false

/-! ## Association-list maps (embedding of Go maps) -/

/-- Go map read `v, ok := m[k]`: the value bound to `k`, if any. -/
def mlook {α β : Type} [BEq α] (m : List (α × β)) (k : α) : Option β :=
  match m with
  | [] => none
  | p :: rest => if p.1 == k then some p.2 else mlook rest k

/-- Delete every binding of key `k` (a Go map holds each key once, so on
well-formed states this is the single `delete(m, k)`). -/
def mdel {α β : Type} [BEq α] (m : List (α × β)) (k : α) : List (α × β) :=
  m.filter (fun p => p.1 != k)

/-- Go map assignment `m[k] = v`: bind `k` to `v`, dropping any previous
binding. -/
def mins {α β : Type} [BEq α] (k : α) (v : β) (m : List (α × β)) : List (α × β) :=
  (k, v) :: mdel m k

/-- Keys of the map are pairwise distinct, as in every reachable Go map. -/
def WFm {α β : Type} (m : List (α × β)) : Prop := (m.map Prod.fst).Nodup

@[simp] theorem mlook_nil {α β : Type} [BEq α] (k : α) :
    mlook ([] : List (α × β)) k = none := rfl

@[simp] theorem mlook_cons {α β : Type} [BEq α] (p : α × β) (rest : List (α × β)) (k : α) :
    mlook (p :: rest) k = if p.1 == k then some p.2 else mlook rest k := rfl

theorem mlook_cons_self {α β : Type} [BEq α] [LawfulBEq α]
    (a : α) (v : β) (rest : List (α × β)) : mlook ((a, v) :: rest) a = some v := by
  simp

theorem mlook_cons_ne {α β : Type} [BEq α] [LawfulBEq α]
    (p : α × β) (rest : List (α × β)) (k : α) (h : p.1 ≠ k) :
    mlook (p :: rest) k = mlook rest k := by
  simp [h]

theorem lookup_mdel_self {α β : Type} [BEq α] [LawfulBEq α]
    (m : List (α × β)) (k : α) : mlook (mdel m k) k = none := by
  induction m with
  | nil => rfl
  | cons p rest ih =>
    by_cases h : p.1 = k
    · have heq : mdel (p :: rest) k = mdel rest k := by
        simp [mdel, List.filter_cons, h]
      rw [heq]
      exact ih
    · have heq : mdel (p :: rest) k = p :: mdel rest k := by
        simp [mdel, List.filter_cons, h]
      rw [heq, mlook_cons_ne _ _ _ h]
      exact ih

theorem lookup_mdel_ne {α β : Type} [BEq α] [LawfulBEq α]
    (m : List (α × β)) (k k' : α) (h : k' ≠ k) :
    mlook (mdel m k) k' = mlook m k' := by
  induction m with
  | nil => rfl
  | cons p rest ih =>
    by_cases hp : p.1 = k
    · have hpk' : p.1 ≠ k' := fun hc => h (hc ▸ hp ▸ rfl)
      have : mdel (p :: rest) k = mdel rest k := by
        simp [mdel, List.filter_cons, hp]
      rw [this, ih, mlook_cons_ne _ _ _ hpk']
    · have : mdel (p :: rest) k = p :: mdel rest k := by
        simp [mdel, List.filter_cons, hp]
      rw [this]
      by_cases hp' : p.1 = k'
      · simp [mlook_cons, hp']
      · rw [mlook_cons_ne _ _ _ hp', mlook_cons_ne _ _ _ hp', ih]

theorem lookup_mins_self {α β : Type} [BEq α] [LawfulBEq α]
    (m : List (α × β)) (k : α) (v : β) : mlook (mins k v m) k = some v := by
  simp [mins]

theorem lookup_mins_ne {α β : Type} [BEq α] [LawfulBEq α]
    (m : List (α × β)) (k k' : α) (v : β) (h : k' ≠ k) :
    mlook (mins k v m) k' = mlook m k' := by
  rw [mins, mlook_cons_ne _ _ _ (by simpa using Ne.symm h)]
  exact lookup_mdel_ne m k k' h

theorem mem_of_mlook_eq_some {α β : Type} [BEq α] [LawfulBEq α]
    {m : List (α × β)} {k : α} {v : β} (h : mlook m k = some v) : (k, v) ∈ m := by
  induction m with
  | nil => simp at h
  | cons p rest ih =>
    by_cases hp : p.1 = k
    · rw [mlook_cons, if_pos (by simp [hp])] at h
      have hv : p.2 = v := by injection h
      have hpkv : p = (k, v) := by
        cases p
        simp only [Prod.mk.injEq]
        exact ⟨hp, hv⟩
      exact hpkv ▸ List.mem_cons_self _ _
    · rw [mlook_cons_ne _ _ _ hp] at h
      exact List.mem_cons_of_mem _ (ih h)

theorem mlook_isSome_of_mem {α β : Type} [BEq α] [LawfulBEq α]
    {m : List (α × β)} {k : α} {v : β} (h : (k, v) ∈ m) : (mlook m k).isSome := by
  induction m with
  | nil => simp at h
  | cons p rest ih =>
    rcases List.mem_cons.mp h with h1 | h2
    · simp [← h1]
    · by_cases hp : p.1 = k
      · simp [hp]
      · rw [mlook_cons_ne _ _ _ hp]
        exact ih h2

theorem mdel_length_lt {α β : Type} [BEq α] [LawfulBEq α]
    {m : List (α × β)} {k : α} (h : k ∈ m.map Prod.fst) :
    (mdel m k).length < m.length := by
  induction m with
  | nil => simp at h
  | cons p rest ih =>
    by_cases hp : p.1 = k
    · have : mdel (p :: rest) k = mdel rest k := by
        simp [mdel, List.filter_cons, hp]
      rw [this]
      exact Nat.lt_succ_of_le (List.length_filter_le _ _)
    · have heq : mdel (p :: rest) k = p :: mdel rest k := by
        simp [mdel, List.filter_cons, hp]
      have hk : k ∈ rest.map Prod.fst := by
        rcases List.mem_map.mp h with ⟨q, hq, hqk⟩
        rcases List.mem_cons.mp hq with h1 | h2
        · exact absurd (h1 ▸ hqk) hp
        · exact List.mem_map.mpr ⟨q, h2, hqk⟩
      rw [heq]
      exact Nat.succ_lt_succ (ih hk)

theorem mdel_eq_self_of_not_mem {α β : Type} [BEq α] [LawfulBEq α]
    {m : List (α × β)} {k : α} (h : k ∉ m.map Prod.fst) : mdel m k = m := by
  induction m with
  | nil => rfl
  | cons p rest ih =>
    have hp : p.1 ≠ k := fun hc => h (List.mem_map.mpr ⟨p, List.mem_cons_self _ _, hc⟩)
    have hr : k ∉ rest.map Prod.fst := fun hc => h (by simp [hc])
    have : mdel (p :: rest) k = p :: mdel rest k := by
      simp [mdel, List.filter_cons, hp]
    rw [this, ih hr]

theorem WFm_mdel {α β : Type} [BEq α] (m : List (α × β)) (k : α)
    (h : WFm m) : WFm (mdel m k) := by
  unfold WFm mdel at *
  exact h.sublist ((List.filter_sublist m).map Prod.fst)

theorem not_mem_keys_mdel {α β : Type} [BEq α] [LawfulBEq α]
    (m : List (α × β)) (k : α) : k ∉ (mdel m k).map Prod.fst := by
  intro h
  rcases List.mem_map.mp h with ⟨q, hq, hqk⟩
  have := List.of_mem_filter hq
  simp [hqk] at this

theorem WFm_mins {α β : Type} [BEq α] [LawfulBEq α] (m : List (α × β)) (k : α) (v : β)
    (h : WFm m) : WFm (mins k v m) := by
  unfold WFm mins
  simp only [List.map_cons]
  exact List.nodup_cons.mpr ⟨not_mem_keys_mdel m k, WFm_mdel m k h⟩

/-! ## LOM data model (`src/cluster/lcopy.go`) -/

/-- Mountpath descriptor: the fields of `fs.MountpathInfo` that the claims
exercise (`Path`, and the `FlagWaitingDD` bit probed by `IsAnySet`). -/
structure Mpi where
  path : String
  waitingDD : Bool
deriving DecidableEq

/-- Embedding of `fs.MPI`, the `map[fqn]*MountpathInfo` held in `md.copies`
(and also the `availablePaths` map, keyed by mountpath path). -/
abbrev MPI := List (String × Mpi)

/-- The LOM fields used by the copy-management code: `FQN`, `HrwFQN`,
`mpathInfo`, `md.copies`, `md.dirty`, the bucket's write policy
(`IsImmediate`) and mirror configuration (`Enabled`, `Copies`). -/
structure LOM where
  fqn : String
  hrwFqn : String
  mpathInfo : Mpi
  copies : MPI
  dirty : Bool
  writeImmediate : Bool
  mirrorEnabled : Bool
  mirrorCopies : Int
deriving DecidableEq

/-- Error kinds surfaced by the copy-management functions (the model does
not distinguish between the different I/O error texts). -/
inductive CErr where
  | copyDoesNotExist (badFqn : String)
  | ioErr
  | badDataCksum
deriving DecidableEq

/-- Translation of `NumCopies`: `cos.Max(len(lom.md.copies), 1)`. -/
def NumCopies (lom : LOM) : Nat := max lom.copies.length 1

/-- Translation of `HasCopies`: `NumCopies() > 1`. -/
def HasCopies (lom : LOM) : Bool := decide (1 < NumCopies lom)

/-- Modelled from the spec: `IsHRW` is defined outside `src/` (in the LOM
core); per §3 a LOM is HRW iff `fqn == hrw_fqn`. -/
def IsHRW (lom : LOM) : Bool := lom.fqn == lom.hrwFqn

/-- Translation of `IsCopy`: not HRW, and this FQN occurs in `md.copies`. -/
def IsCopy (lom : LOM) : Bool := !IsHRW lom && (mlook lom.copies lom.fqn).isSome

/-- Translation of `whingeCopy` (the logging/assert side effects dropped). -/
def whingeCopy (lom : LOM) : Bool := IsCopy lom

/-- Translation of `delCopyMd`: delete `copyFQN` from `md.copies` and
normalize a map of size `<= 1` to `nil`. -/
def delCopyMd (c : MPI) (k : String) : MPI :=
  if (mdel c k).length ≤ 1 then [] else mdel c k

/-- Modelled from the spec: `persistMdOnCopies` is not under `src/`; per
§4.2 it persists the metadata to every copy (other than the object
itself) and reports the first copy whose persist fails, `pf` being the
per-FQN failure oracle. -/
def persistMdOnCopies (selfF : String) (pf : String → Bool) : MPI → Option String
  | [] => none
  | (k, _) :: rest =>
    if k != selfF && pf k then some k else persistMdOnCopies selfF pf rest

theorem persistMdOnCopies_mem {selfF : String} {pf : String → Bool} {b : String} :
    ∀ {c : MPI}, persistMdOnCopies selfF pf c = some b → b ∈ c.map Prod.fst := by
  intro c
  induction c with
  | nil => intro h; simp [persistMdOnCopies] at h
  | cons p rest ih =>
    intro h
    cases p with
    | mk k m =>
      by_cases hk : (k != selfF && pf k) = true
      · rw [persistMdOnCopies, if_pos hk] at h
        cases h
        simp
      · rw [persistMdOnCopies, if_neg hk] at h
        simpa using Or.inr (ih h)

theorem delCopyMd_length_lt {c : MPI} {b : String} (hb : b ∈ c.map Prod.fst) :
    (delCopyMd c b).length < c.length := by
  have hpos : 0 < c.length := by
    cases c with
    | nil => simp at hb
    | cons _ _ => simp
  unfold delCopyMd
  by_cases hle : (mdel c b).length ≤ 1
  · rw [if_pos hle]; simpa using hpos
  · rw [if_neg hle]; exact mdel_length_lt hb

/-- The retry loop inside `syncMetaWithCopies`: keep calling
`persistMdOnCopies`, dropping the failing copy, until success (which
includes the copies map having emptied).  Also counts iterations of the
loop body that ran because of a failure. -/
def syncLoop (selfF : String) (pf : String → Bool) (c : MPI) : MPI × Nat :=
  match h : persistMdOnCopies selfF pf c with
  | none => (c, 0)
  | some bad =>
    let r := syncLoop selfF pf (delCopyMd c bad)
    (r.1, r.2 + 1)
termination_by c.length
decreasing_by
  exact delCopyMd_length_lt (persistMdOnCopies_mem h)

/-- Translation of `syncMetaWithCopies`: no copies → no-op; non-immediate
write policy → mark dirty; else run the persist/drop retry loop.  The
`fs.Access`/FSHC notification side effects are dropped (they do not touch
`md`).  Returns the updated LOM, the returned `error`, and the number of
failing loop iterations. -/
def syncMetaWithCopies (lom : LOM) (pf : String → Bool) : LOM × Option CErr × Nat :=
  if !HasCopies lom then (lom, none, 0)
  else if !lom.writeImmediate then ({lom with dirty := true}, none, 0)
  else
    let r := syncLoop lom.fqn pf lom.copies
    ({lom with copies := r.1}, none, r.2)

/-- Translation of `AddCopy`: `copies[copyFQN] = mpi`, `copies[FQN] =
mpathInfo` (the `nil`-map `make` is the same operation on the empty
association list), then `syncMetaWithCopies`. -/
def AddCopy (lom : LOM) (copyFQN : String) (mpi : Mpi) (pf : String → Bool) :
    LOM × Option CErr :=
  let c2 := mins lom.fqn lom.mpathInfo (mins copyFQN mpi lom.copies)
  let r := syncMetaWithCopies {lom with copies := c2} pf
  (r.1, r.2.1)

/-- Step 1 of `DelCopies`: walk the requested FQNs; each one present is
deleted from the metadata (with `delCopyMd` normalization) before the
next is examined; the first absent one aborts with `CopyDoesNotExist`. -/
def delCopiesLoop (F : List String) (c : MPI) : MPI × Option CErr :=
  match F with
  | [] => (c, none)
  | f :: rest =>
    if (mlook c f).isSome then delCopiesLoop rest (delCopyMd c f)
    else (c, some (.copyDoesNotExist f))

/-- Translation of `DelCopies`: delete from metadata (step 1), sync the
remaining copies (step 2), then best-effort unlink each requested FQN
(step 3) — `removeOk` is the unlink-success oracle, and the returned list
holds the FQNs whose `cos.RemoveFile` succeeded. -/
def DelCopies (lom : LOM) (pf : String → Bool) (removeOk : String → Bool)
    (F : List String) : LOM × Option CErr × List String :=
  let r1 := delCopiesLoop F lom.copies
  match r1.2 with
  | some er => ({lom with copies := r1.1}, some er, [])
  | none =>
    let r2 := syncMetaWithCopies {lom with copies := r1.1} pf
    match r2.2.1 with
    | some er => (r2.1, some er, [])
    | none => (r2.1, none, F.filter removeOk)

/-- Translation of `DelAllCopies`: collect every copy FQN other than the
object's own and delegate to `DelCopies`. -/
def DelAllCopies (lom : LOM) (pf : String → Bool) (removeOk : String → Bool) :
    LOM × Option CErr × List String :=
  DelCopies lom pf removeOk ((lom.copies.map Prod.fst).filter (fun k => k != lom.fqn))

/-- The mountpath scan of `DelExtraCopies`: for each available mountpath,
compute its would-be object FQN (`mkFQN`, abstracting
`mi.MakePathFQN(bucket, ObjectType, objname)` for this LOM's object);
skip it when present in `md.copies`, else unlink it (`removeOk` oracle);
a failed unlink records the error and continues; a successful unlink of
the optional first argument sets `removed`.  State: (removed, unlinked
FQNs so far, err). -/
def delExtraLoop (c : MPI) (mkFQN : Mpi → String) (removeOk : String → Bool)
    (args : List String) :
    List (String × Mpi) → Bool × List String × Option CErr →
    Bool × List String × Option CErr
  | [], st => st
  | (_, mi) :: rest, (removed, unlinked, er) =>
    let copyFQN := mkFQN mi
    if (mlook c copyFQN).isSome then
      delExtraLoop c mkFQN removeOk args rest (removed, unlinked, er)
    else if !removeOk copyFQN then
      delExtraLoop c mkFQN removeOk args rest (removed, unlinked, some .ioErr)
    else
      delExtraLoop c mkFQN removeOk args rest
        (removed || (args.head? == some copyFQN), unlinked ++ [copyFQN], er)

/-- Translation of `DelExtraCopies`: no-op for a LOM that is itself a
copy (`whingeCopy`); otherwise scan all available mountpaths.  Returns
`(removed, successfully unlinked FQNs, err)`. -/
def DelExtraCopies (lom : LOM) (avail : List (String × Mpi)) (mkFQN : Mpi → String)
    (removeOk : String → Bool) (args : List String) :
    Bool × List String × Option CErr :=
  if whingeCopy lom then (false, [], none)
  else delExtraLoop lom.copies mkFQN removeOk args avail (false, [], none)

/-- Outcomes of the filesystem steps of `Copy` that precede the metadata
update: the destination-exists-and-is-`Equal` short cut (`skipCopy`), the
`cos.CopyFile` and `cos.Rename` calls, and the `lom.Persist()` call. -/
structure CopyEnv where
  skipCopy : Bool
  copyFileOk : Bool
  renameOk : Bool
  persistOk : Bool
deriving DecidableEq

/-- Translation of `Copy` restricted to its effect on `md.copies` and its
returned error: a failing `CopyFile`/`Rename` aborts before any metadata
change; otherwise `AddCopy` (whose returned sync error the source
ignores), then `Persist` — whose failure rolls back with `delCopyMd` —
then `syncMetaWithCopies`. -/
def Copy (lom : LOM) (copyFQN : String) (mpi : Mpi) (env : CopyEnv)
    (pf : String → Bool) : LOM × Option CErr :=
  if !env.skipCopy && !env.copyFileOk then (lom, some .ioErr)
  else if !env.skipCopy && !env.renameOk then (lom, some .ioErr)
  else
    let r1 := AddCopy lom copyFQN mpi pf
    if !env.persistOk then
      ({r1.1 with copies := delCopyMd r1.1.copies copyFQN}, some .ioErr)
    else
      let r2 := syncMetaWithCopies r1.1 pf
      (r2.1, r2.2.1)

/-- Outcomes of the filesystem steps of `Copy2FQN`: whether source and
destination are a mirror pair (`isMirror`), the `CopyFile`/`Rename`
calls, the destination checksum comparison, and the final
`lom.Persist()` / `dst.Persist()` calls. -/
structure Copy2Env where
  mirror : Bool
  copyFileOk : Bool
  renameOk : Bool
  cksumOk : Bool
  srcPersistOk : Bool
  dstPersistOk : Bool
deriving DecidableEq

/-- Translation of `Copy2FQN` restricted to its effect on the source's and
the clone's `md.copies` and its returned error.  The clone starts with
`copies = nil`, preloaded from the source in the mirror case; after a
successful copy the mirror case splices `dstFQN` and the source FQN into
both maps and syncs the source (the sync-error rollback branch is
unreachable — see `syncMetaWithCopies_err_none`), then persists the
source; the non-mirror case persists the clone.  On the error paths the
Go function returns a nil `dst`; the second component then reports the
discarded clone's map. -/
def Copy2FQN (lom : LOM) (dstFQN : String) (dstMpi : Mpi) (env : Copy2Env)
    (pf : String → Bool) : MPI × MPI × Option CErr :=
  let dst0 : MPI := if env.mirror && !lom.copies.isEmpty then lom.copies else []
  if !env.copyFileOk then (lom.copies, dst0, some .ioErr)
  else if !env.renameOk then (lom.copies, dst0, some .ioErr)
  else if !env.cksumOk then (lom.copies, dst0, some .badDataCksum)
  else if env.mirror then
    let src1 := mins lom.fqn lom.mpathInfo (mins dstFQN dstMpi lom.copies)
    let dst1 := mins lom.fqn lom.mpathInfo (mins dstFQN dstMpi dst0)
    let r := syncMetaWithCopies {lom with copies := src1} pf
    (r.1.copies, dst1, if env.srcPersistOk then none else some .ioErr)
  else
    (lom.copies, dst0, if env.dstPersistOk then none else some .ioErr)

/-! ## Load-balanced read and placement oracle -/

/-- The scan inside `leastUtilCopy`: `util` is the snapshot
`fs.GetAllMpathUtils()`; entries equal to the object's own FQN are
skipped; a strictly smaller utilization replaces the candidate. -/
def leastUtilLoop (selfF : String) (util : String → Int) :
    List (String × Mpi) → String × Int → String × Int
  | [], st => st
  | (copyFQN, copyMPI) :: rest, (f, mu) =>
    if copyFQN ≠ selfF ∧ util copyMPI.path < mu then
      leastUtilLoop selfF util rest (copyFQN, util copyMPI.path)
    else
      leastUtilLoop selfF util rest (f, mu)

/-- Translation of `leastUtilCopy`: candidate starts as the LOM's own
`(FQN, mountpath utilization)` pair. -/
def leastUtilCopy (lom : LOM) (util : String → Int) : String :=
  (leastUtilLoop lom.fqn util lom.copies (lom.fqn, util lom.mpathInfo.path)).1

/-- Translation of `LBGet`. -/
def LBGet (lom : LOM) (util : String → Int) : String :=
  if !HasCopies lom then lom.fqn else leastUtilCopy lom util

/-- Translation of `haveMpath` (the copies map is passed explicitly since
`ToMpath` consults it after pruning). -/
def haveMpath (lom : LOM) (c : MPI) (mpath : String) : Bool :=
  if c.length = 0 then lom.mpathInfo.path == mpath
  else c.any (fun p => p.2.path == mpath)

/-- The scan inside `LeastUtilNoCopy` over `availablePaths`, with
`minUtil` initialized to 101 to motivate the first assignment. -/
def LeastUtilNoCopyLoop (lom : LOM) (c : MPI) (util : String → Int) :
    List (String × Mpi) → Option Mpi × Int → Option Mpi × Int
  | [], st => st
  | (mpath, mpathInfo) :: rest, (mi, mu) =>
    if haveMpath lom c mpath || mpathInfo.waitingDD then
      LeastUtilNoCopyLoop lom c util rest (mi, mu)
    else if util mpath < mu then
      LeastUtilNoCopyLoop lom c util rest (some mpathInfo, util mpath)
    else
      LeastUtilNoCopyLoop lom c util rest (mi, mu)

/-- Translation of `LeastUtilNoCopy`. -/
def LeastUtilNoCopy (lom : LOM) (c : MPI) (avail : List (String × Mpi))
    (util : String → Int) : Option Mpi :=
  (LeastUtilNoCopyLoop lom c util avail (none, 101)).1

/-- The copy-pruning loop of `ToMpath`: ranges over the entries of the
original `md.copies`; a copy whose mountpath is no longer available or is
flagged `WaitingDD` is dropped with `delCopyMd` from the current map,
survivors are counted in `gotCopies`.  (Go ranges over the map object
captured at loop entry, so entries are still visited after a
normalization rebinding — hence the fold over the original entry
list.) -/
def pruneLoop (avail : List (String × Mpi)) :
    List (String × Mpi) → MPI → Nat → MPI × Nat
  | [], c, got => (c, got)
  | (fqn, mpi) :: rest, c, got =>
    match mlook avail mpi.path with
    | none => pruneLoop avail rest (delCopyMd c fqn) got
    | some mpathInfo =>
      if mpathInfo.waitingDD then pruneLoop avail rest (delCopyMd c fqn) got
      else pruneLoop avail rest c (got + 1)

/-- Translation of `ToMpath`.  `hrw` is the outcome of the `HrwMpath`
oracle (`none` = the oracle failed); `avail` is `fs.GetAvail()`.  Returns
the updated `md.copies` (the pruning mutates the LOM), the destination
mountpath (or `none`), and `isHrw`. -/
def ToMpath (lom : LOM) (avail : List (String × Mpi)) (util : String → Int)
    (hrw : Option Mpi) : MPI × Option Mpi × Bool :=
  match hrw with
  | none => (lom.copies, none, false)
  | some hrwMi =>
    if lom.mpathInfo.path ≠ hrwMi.path then (lom.copies, some hrwMi, true)
    else if !lom.mirrorEnabled || lom.mirrorCopies < 2 then (lom.copies, none, false)
    else
      let r := pruneLoop avail lom.copies lom.copies 0
      if lom.mirrorCopies ≤ (r.2 : Int) then (r.1, none, false)
      else (r.1, LeastUtilNoCopy lom r.1 avail util, false)

/-! ## Basic facts about `syncMetaWithCopies` and `DelCopies` -/

/-- The retry loop of `syncMetaWithCopies` only exits through the
`err == nil` break, so the function never returns an error. -/
theorem syncMetaWithCopies_err_none (lom : LOM) (pf : String → Bool) :
    (syncMetaWithCopies lom pf).2.1 = none := by
  unfold syncMetaWithCopies
  split
  · rfl
  · split
    · rfl
    · rfl

theorem syncLoop_iters_le (selfF : String) (pf : String → Bool) :
    ∀ (n : Nat) (c : MPI), c.length ≤ n → (syncLoop selfF pf c).2 ≤ c.length := by
  intro n
  induction n with
  | zero =>
    intro c hc
    have hc0 : c = [] := List.length_eq_zero.mp (Nat.le_zero.mp hc)
    subst hc0
    rw [syncLoop]
    split
    · simp
    · rename_i bad hbad
      simp [persistMdOnCopies] at hbad
  | succ n ih =>
    intro c hc
    rw [syncLoop]
    split
    · simp
    · rename_i bad hbad
      have hlt : (delCopyMd c bad).length < c.length :=
        delCopyMd_length_lt (persistMdOnCopies_mem hbad)
      have hle : (delCopyMd c bad).length ≤ n := by omega
      have := ih (delCopyMd c bad) hle
      simp only []
      omega

theorem mlook_delCopyMd_self (c : MPI) (k : String) :
    mlook (delCopyMd c k) k = none := by
  unfold delCopyMd
  split
  · rfl
  · exact lookup_mdel_self c k

theorem delCopyMd_preserves_none {c : MPI} (k : String) {x : String}
    (h : mlook c x = none) : mlook (delCopyMd c k) x = none := by
  unfold delCopyMd
  split
  · rfl
  · by_cases hx : x = k
    · subst hx
      exact lookup_mdel_self c x
    · rw [lookup_mdel_ne c k x hx]
      exact h

theorem syncLoop_preserves_none (selfF : String) (pf : String → Bool) :
    ∀ (n : Nat) (c : MPI) (x : String), c.length ≤ n → mlook c x = none →
      mlook (syncLoop selfF pf c).1 x = none := by
  intro n
  induction n with
  | zero =>
    intro c x hc hx
    have hc0 : c = [] := List.length_eq_zero.mp (Nat.le_zero.mp hc)
    subst hc0
    rw [syncLoop]
    split
    · exact hx
    · rename_i bad hbad
      simp [persistMdOnCopies] at hbad
  | succ n ih =>
    intro c x hc hx
    rw [syncLoop]
    split
    · exact hx
    · rename_i bad hbad
      have hlt : (delCopyMd c bad).length < c.length :=
        delCopyMd_length_lt (persistMdOnCopies_mem hbad)
      have hle : (delCopyMd c bad).length ≤ n := by omega
      simp only []
      exact ih (delCopyMd c bad) x hle (delCopyMd_preserves_none bad hx)

theorem syncMetaWithCopies_preserves_none (lom : LOM) (pf : String → Bool)
    (x : String) (h : mlook lom.copies x = none) :
    mlook (syncMetaWithCopies lom pf).1.copies x = none := by
  unfold syncMetaWithCopies
  split
  · exact h
  · split
    · exact h
    · exact syncLoop_preserves_none lom.fqn pf lom.copies.length lom.copies x le_rfl h

theorem delCopiesLoop_preserves_none :
    ∀ (F : List String) (c : MPI) (x : String), mlook c x = none →
      mlook (delCopiesLoop F c).1 x = none := by
  intro F
  induction F with
  | nil => intro c x h; exact h
  | cons f rest ih =>
    intro c x h
    unfold delCopiesLoop
    split
    · exact ih (delCopyMd c f) x (delCopyMd_preserves_none f h)
    · exact h

theorem delCopiesLoop_success_absent :
    ∀ (F : List String) (c : MPI), (delCopiesLoop F c).2 = none →
      ∀ f ∈ F, mlook (delCopiesLoop F c).1 f = none := by
  intro F
  induction F with
  | nil => intro c _ f hf; simp at hf
  | cons g rest ih =>
    intro c hok f hf
    unfold delCopiesLoop at hok ⊢
    split at hok
    · rename_i hsome
      rcases List.mem_cons.mp hf with h1 | h2
      · subst h1
        simp only [hsome, if_pos]
        exact delCopiesLoop_preserves_none rest (delCopyMd c f) f
          (mlook_delCopyMd_self c f)
      · simp only [hsome, if_pos]
        exact ih (delCopyMd c g) hok f h2
    · simp at hok

/-! ## Concrete fixtures used by counterexamples and witnesses -/

def mp0 : Mpi := ⟨"/m0", false⟩

def mp1 : Mpi := ⟨"/m1", false⟩

def pfNone : String → Bool := fun _ => false

def rokAll : String → Bool := fun _ => true

/-- A LOM sitting at its HRW location with one true replica. -/
def lomC1 : LOM :=
  ⟨"/m0/b/o", "/m0/b/o", mp0, [("/m0/b/o", mp0), ("/m1/b/o", mp1)], false, true, true, 2⟩

/-- Claim C9 (termination of `syncMetaWithCopies`): the no-copies and
non-immediate-write-policy paths return with zero loop iterations (at
most one step); every failing iteration's `delCopyMd` of the copy
reported by `persistMdOnCopies` strictly shrinks the copies map; and the
loop runs at most as many failing iterations as the initial number of
copies. -/
theorem C9_sync_terminates :
    (∀ (lom : LOM) (pf : String → Bool), HasCopies lom = false →
      syncMetaWithCopies lom pf = (lom, none, 0)) ∧
    (∀ (lom : LOM) (pf : String → Bool), lom.writeImmediate = false →
      (syncMetaWithCopies lom pf).2.2 = 0) ∧
    (∀ (selfF : String) (pf : String → Bool) (c : MPI) (bad : String),
      persistMdOnCopies selfF pf c = some bad →
      (delCopyMd c bad).length < c.length) ∧
    (∀ (lom : LOM) (pf : String → Bool),
      (syncMetaWithCopies lom pf).2.2 ≤ lom.copies.length) := by
  refine ⟨?_, ?_, ?_, ?_⟩
  · intro lom pf h
    simp [syncMetaWithCopies, h]
  · intro lom pf h
    unfold syncMetaWithCopies
    split
    · rfl
    · simp [h]
  · intro selfF pf c bad h
    exact delCopyMd_length_lt (persistMdOnCopies_mem h)
  · intro lom pf
    unfold syncMetaWithCopies
    split
    · simp
    · split
      · simp
      · exact syncLoop_iters_le lom.fqn pf lom.copies.length lom.copies le_rfl

/-- Witness for C9 at concrete inputs. -/
theorem C9_witness :
    syncMetaWithCopies ⟨"/m0/b/o", "/m0/b/o", mp0, [], false, true, true, 2⟩ pfNone =
      (⟨"/m0/b/o", "/m0/b/o", mp0, [], false, true, true, 2⟩, none, 0) ∧
    (delCopyMd [("/m1/b/o", mp1)] "/m1/b/o").length < 1 := by
  constructor
  · exact C9_sync_terminates.1 _ pfNone (by decide)
  · exact C9_sync_terminates.2.2.1 "/m0/b/o" rokAll [("/m1/b/o", mp1)] "/m1/b/o" (by decide)

/-- Claim C1, counterexample to the as-stated atomicity: with copies
`{self, /m1/b/o}`, the call `DelCopies(["/m1/b/o", "/nope"])` fails with
`CopyDoesNotExist` on `"/nope"`, yet `md.copies` has already lost
`"/m1/b/o"` (and was normalized to empty), so it is not what it was
before the call. -/
theorem C1_counterexample :
    (DelCopies lomC1 pfNone rokAll ["/m1/b/o", "/nope"]).2.1 =
      some (CErr.copyDoesNotExist "/nope") ∧
    (DelCopies lomC1 pfNone rokAll ["/m1/b/o", "/nope"]).1.copies ≠ lomC1.copies := by
  decide

/-- Claim C1 (amended): when `DelCopies(F)` fails with the
copy-does-not-exist error, no filesystem unlink has yet happened (the
error is atomic with respect to the file deletions, though the metadata
entries of the fqns of `F` preceding the offending one are already
gone); and whenever `DelCopies(F)` succeeds, no element of `F` remains
in `md.copies`. -/
theorem C1_delCopies_amended :
    (∀ (lom : LOM) (pf rok : String → Bool) (F : List String) (er : CErr),
      (DelCopies lom pf rok F).2.1 = some er → (DelCopies lom pf rok F).2.2 = []) ∧
    (∀ (lom : LOM) (pf rok : String → Bool) (F : List String),
      (DelCopies lom pf rok F).2.1 = none →
      ∀ f ∈ F, mlook (DelCopies lom pf rok F).1.copies f = none) := by
  constructor
  · intro lom pf rok F er h
    rcases h1 : delCopiesLoop F lom.copies with ⟨c1, e1⟩
    unfold DelCopies at h ⊢
    simp only [h1] at h ⊢
    cases e1 with
    | some er2 => rfl
    | none =>
      rw [syncMetaWithCopies_err_none] at h
      simp at h
  · intro lom pf rok F hok f hf
    rcases h1 : delCopiesLoop F lom.copies with ⟨c1, e1⟩
    have habs := delCopiesLoop_success_absent F lom.copies
    rw [h1] at habs
    unfold DelCopies at hok ⊢
    simp only [h1] at hok ⊢
    cases e1 with
    | some er2 => simp at hok
    | none =>
      simp only [syncMetaWithCopies_err_none]
      exact syncMetaWithCopies_preserves_none _ pf f (habs rfl f hf)

/-- Witness for C1's amended theorem at concrete inputs. -/
theorem C1_witness :
    (DelCopies lomC1 pfNone rokAll ["/m1/b/o", "/nope"]).2.2 = [] ∧
    mlook (DelCopies lomC1 pfNone rokAll ["/m1/b/o"]).1.copies "/m1/b/o" = none := by
  constructor
  · exact C1_delCopies_amended.1 lomC1 pfNone rokAll ["/m1/b/o", "/nope"]
      (CErr.copyDoesNotExist "/nope") (by decide)
  · exact C1_delCopies_amended.2 lomC1 pfNone rokAll ["/m1/b/o"] (by decide)
      "/m1/b/o" (by decide)

/-! ## Claims C4 and C5: placement oracle and load-balanced read -/

/-- Claim C4: `ToMpath` returns `is_hrw = true` iff the `HrwMpath` oracle
succeeded and the LOM's current mountpath path differs from the HRW
mountpath's path; in particular `is_hrw = false` whenever the oracle
fails. -/
theorem C4_toMpath_isHrw (lom : LOM) (avail : List (String × Mpi))
    (util : String → Int) (hrw : Option Mpi) :
    (ToMpath lom avail util hrw).2.2 = true ↔
      ∃ mi, hrw = some mi ∧ lom.mpathInfo.path ≠ mi.path := by
  cases hrw with
  | none => simp [ToMpath]
  | some hrwMi =>
    constructor
    · intro h
      refine ⟨hrwMi, rfl, ?_⟩
      intro hp
      simp only [ToMpath] at h
      rw [if_neg (fun hne => hne hp)] at h
      split at h
      · simp at h
      · split at h
        · simp at h
        · simp at h
    · rintro ⟨mi, hmi, hne⟩
      injection hmi with hmi
      subst hmi
      simp only [ToMpath]
      rw [if_pos hne]

theorem WFm_lookup_unique {α β : Type} [BEq α] [LawfulBEq α] {m : List (α × β)}
    {k : α} {v w : β} (hw : WFm m) (hl : mlook m k = some v) (hm : (k, w) ∈ m) :
    w = v := by
  induction m with
  | nil => simp at hm
  | cons p rest ih =>
    have hw' : WFm rest := (List.nodup_cons.mp hw).2
    rcases List.mem_cons.mp hm with h1 | h2
    · rw [← h1] at hl
      rw [mlook_cons, if_pos (by simp)] at hl
      injection hl
    · by_cases hp : p.1 = k
      · exfalso
        have hk : k ∈ rest.map Prod.fst := List.mem_map.mpr ⟨(k, w), h2, rfl⟩
        have := (List.nodup_cons.mp hw).1
        exact this (hp ▸ hk)
      · rw [mlook_cons_ne _ _ _ hp] at hl
        exact ih hw' hl h2

theorem leastUtilLoop_spec (selfF : String) (util : String → Int) :
    ∀ (entries : List (String × Mpi)) (f0 : String) (u0 : Int),
      (leastUtilLoop selfF util entries (f0, u0)).2 ≤ u0 ∧
      (∀ p ∈ entries, p.1 ≠ selfF →
        (leastUtilLoop selfF util entries (f0, u0)).2 ≤ util p.2.path) ∧
      ((leastUtilLoop selfF util entries (f0, u0)).1 = f0 ∧
          (leastUtilLoop selfF util entries (f0, u0)).2 = u0 ∨
        ∃ p ∈ entries, p.1 ≠ selfF ∧
          (leastUtilLoop selfF util entries (f0, u0)).1 = p.1 ∧
          (leastUtilLoop selfF util entries (f0, u0)).2 = util p.2.path) ∧
      ((leastUtilLoop selfF util entries (f0, u0)).1 = f0 ∨
        (leastUtilLoop selfF util entries (f0, u0)).2 < u0) := by
  intro entries
  induction entries with
  | nil =>
    intro f0 u0
    simp [leastUtilLoop]
  | cons q rest ih =>
    intro f0 u0
    rcases q with ⟨k, m⟩
    by_cases hc : k ≠ selfF ∧ util m.path < u0
    · simp only [leastUtilLoop, if_pos hc]
      obtain ⟨ha, hb, hcc, hd⟩ := ih k (util m.path)
      refine ⟨le_of_lt (lt_of_le_of_lt ha hc.2), ?_, ?_, ?_⟩
      · intro p hp hps
        rcases List.mem_cons.mp hp with h1 | h2
        · rw [h1]
          exact ha
        · exact hb p h2 hps
      · rcases hcc with ⟨he, hu⟩ | ⟨p, hp, hps, he, hu⟩
        · exact Or.inr ⟨(k, m), List.mem_cons_self _ _, hc.1, he, hu⟩
        · exact Or.inr ⟨p, List.mem_cons_of_mem _ hp, hps, he, hu⟩
      · exact Or.inr (lt_of_le_of_lt ha hc.2)
    · simp only [leastUtilLoop, if_neg hc]
      obtain ⟨ha, hb, hcc, hd⟩ := ih f0 u0
      have hc' : k = selfF ∨ u0 ≤ util m.path := by
        by_cases hk : k = selfF
        · exact Or.inl hk
        · refine Or.inr ?_
          by_contra hu
          exact hc ⟨hk, lt_of_not_le hu⟩
      refine ⟨ha, ?_, ?_, hd⟩
      · intro p hp hps
        rcases List.mem_cons.mp hp with h1 | h2
        · rcases hc' with h' | h'
          · exact absurd (by rw [h1]; exact h') hps
          · rw [h1]
            exact le_trans ha h'
        · exact hb p h2 hps
      · rcases hcc with ⟨he, hu⟩ | ⟨p, hp, hps, he, hu⟩
        · exact Or.inl ⟨he, hu⟩
        · exact Or.inr ⟨p, List.mem_cons_of_mem _ hp, hps, he, hu⟩

/-- Claim C5: with no copies (`NumCopies() <= 1`) `LBGet` returns the
LOM's own FQN; with copies it returns the FQN of a copy whose mountpath
utilization (`u` below, the winning candidate's utilization in the
snapshot) is `<=` that of every copy's mountpath, ties favoring the
incumbent candidate that starts at the LOM's own mountpath (in
particular, when no copy's mountpath is strictly less utilized than the
LOM's own, the LOM's own FQN wins). -/
theorem C5_lbget :
    (∀ (lom : LOM) (util : String → Int),
      HasCopies lom = false → LBGet lom util = lom.fqn) ∧
    (∀ (lom : LOM) (util : String → Int),
      HasCopies lom = true → WFm lom.copies →
      mlook lom.copies lom.fqn = some lom.mpathInfo →
      ∃ u : Int,
        (LBGet lom util, u) =
          leastUtilLoop lom.fqn util lom.copies (lom.fqn, util lom.mpathInfo.path) ∧
        LBGet lom util ∈ lom.copies.map Prod.fst ∧
        (∀ p ∈ lom.copies, u ≤ util p.2.path) ∧
        ((LBGet lom util = lom.fqn ∧ u = util lom.mpathInfo.path) ∨
          ∃ p ∈ lom.copies, LBGet lom util = p.1 ∧ u = util p.2.path) ∧
        ((∀ p ∈ lom.copies, util lom.mpathInfo.path ≤ util p.2.path) →
          LBGet lom util = lom.fqn)) := by
  constructor
  · intro lom util h
    simp [LBGet, h]
  · intro lom util h hwf hself
    have hLB : LBGet lom util = leastUtilCopy lom util := by
      simp [LBGet, h]
    obtain ⟨ha, hb, hcc, hd⟩ :=
      leastUtilLoop_spec lom.fqn util lom.copies lom.fqn (util lom.mpathInfo.path)
    refine ⟨(leastUtilLoop lom.fqn util lom.copies
      (lom.fqn, util lom.mpathInfo.path)).2, ?_, ?_, ?_, ?_, ?_⟩
    · rw [hLB]
      unfold leastUtilCopy
      rfl
    · rw [hLB]
      unfold leastUtilCopy
      rcases hcc with ⟨he, _⟩ | ⟨p, hp, _, he, _⟩
      · rw [he]
        exact List.mem_map.mpr ⟨(lom.fqn, lom.mpathInfo), mem_of_mlook_eq_some hself, rfl⟩
      · rw [he]
        exact List.mem_map.mpr ⟨p, hp, rfl⟩
    · intro p hp
      by_cases hps : p.1 = lom.fqn
      · have hv : p.2 = lom.mpathInfo := by
          have hmem : (lom.fqn, p.2) ∈ lom.copies := by
            rw [← hps]
            exact hp
          exact WFm_lookup_unique hwf hself hmem
        rw [hv]
        exact ha
      · exact hb p hp hps
    · rw [hLB]
      unfold leastUtilCopy
      rcases hcc with ⟨he, hu⟩ | ⟨p, hp, hps, he, hu⟩
      · exact Or.inl ⟨he, hu⟩
      · exact Or.inr ⟨p, hp, he, hu⟩
    · intro hall
      rw [hLB]
      unfold leastUtilCopy
      rcases hd with he | hlt
      · exact he
      · exfalso
        rcases hcc with ⟨_, hu⟩ | ⟨p, hp, hps, he, hu⟩
        · omega
        · have := hall p hp
          omega

/-- A LOM with no copies, at its HRW location. -/
def lomNoCopies : LOM := ⟨"/m0/b/o", "/m0/b/o", mp0, [], false, true, false, 0⟩

/-- A utilization snapshot preferring mountpath `/m1`. -/
def util01 : String → Int := fun p => if p == "/m1" then 1 else 5

/-- Witness for C5 at concrete inputs. -/
theorem C5_witness :
    LBGet lomNoCopies util01 = "/m0/b/o" ∧
    LBGet lomC1 util01 ∈ lomC1.copies.map Prod.fst := by
  constructor
  · exact C5_lbget.1 lomNoCopies util01 (by decide)
  · obtain ⟨u, -, hmem, -, -, -⟩ :=
      C5_lbget.2 lomC1 util01 (by decide) (by unfold WFm; decide) (by decide)
    exact hmem

/-! ## Claim C10: `DelExtraCopies` -/

/-- The FQNs that the `DelExtraCopies` scan successfully unlinks: the
would-be object FQN of each available mountpath that is absent from
`md.copies` and whose `cos.RemoveFile` succeeds. -/
def extraTargets (c : MPI) (mkFQN : Mpi → String) (rok : String → Bool)
    (avail : List (String × Mpi)) : List String :=
  (avail.filter
    (fun q => (mlook c (mkFQN q.2)).isNone && rok (mkFQN q.2))).map
    (fun q => mkFQN q.2)

theorem delExtraLoop_unlinked (c : MPI) (mkFQN : Mpi → String)
    (rok : String → Bool) (args : List String) :
    ∀ (rem : List (String × Mpi)) (rm : Bool) (ul : List String) (er : Option CErr),
      (delExtraLoop c mkFQN rok args rem (rm, ul, er)).2.1 =
        ul ++ extraTargets c mkFQN rok rem := by
  intro rem
  induction rem with
  | nil =>
    intro rm ul er
    simp [delExtraLoop, extraTargets]
  | cons q rest ih =>
    intro rm ul er
    rcases q with ⟨mp, mi⟩
    by_cases h1 : (mlook c (mkFQN mi)).isSome
    · have h1' : (mlook c (mkFQN mi)).isNone = false := by
        simp [Option.isNone_iff_eq_none]
        exact Option.isSome_iff_exists.mp h1 |>.elim (fun v hv => by simp [hv])
      simp only [delExtraLoop, h1, if_pos]
      rw [ih]
      simp [extraTargets, List.filter_cons, h1']
    · have h1' : (mlook c (mkFQN mi)).isNone = true := by
        simp [Option.isNone_iff_eq_none, Option.not_isSome_iff_eq_none.mp h1]
      simp only [delExtraLoop, h1, Bool.false_eq_true, if_neg, not_false_iff]
      by_cases h2 : rok (mkFQN mi)
      · simp only [h2, Bool.not_true, Bool.false_eq_true, if_neg, not_false_iff]
        rw [ih]
        simp [extraTargets, List.filter_cons, h1', h2]
      · have h2' : rok (mkFQN mi) = false := by
          exact Bool.not_eq_true _ |>.mp h2
        simp only [h2', Bool.not_false, if_pos]
        rw [ih]
        simp [extraTargets, List.filter_cons, h1', h2']

theorem delExtraLoop_removed (c : MPI) (mkFQN : Mpi → String)
    (rok : String → Bool) (args : List String) :
    ∀ (rem : List (String × Mpi)) (rm : Bool) (ul : List String) (er : Option CErr),
      (rm = true ↔ ∃ a, args.head? = some a ∧ a ∈ ul) →
      ((delExtraLoop c mkFQN rok args rem (rm, ul, er)).1 = true ↔
        ∃ a, args.head? = some a ∧
          a ∈ (delExtraLoop c mkFQN rok args rem (rm, ul, er)).2.1) := by
  intro rem
  induction rem with
  | nil =>
    intro rm ul er hinv
    simpa [delExtraLoop] using hinv
  | cons q rest ih =>
    intro rm ul er hinv
    rcases q with ⟨mp, mi⟩
    by_cases h1 : (mlook c (mkFQN mi)).isSome
    · simp only [delExtraLoop, h1, if_pos]
      exact ih rm ul er hinv
    · simp only [delExtraLoop, h1, Bool.false_eq_true, if_neg, not_false_iff]
      by_cases h2 : rok (mkFQN mi)
      · simp only [h2, Bool.not_true, Bool.false_eq_true, if_neg, not_false_iff]
        refine ih _ _ er ?_
        constructor
        · intro hor
          rcases Bool.or_eq_true _ _ |>.mp hor with hl | hr
          · obtain ⟨a, ha1, ha2⟩ := hinv.mp hl
            exact ⟨a, ha1, List.mem_append_left _ ha2⟩
          · have : args.head? = some (mkFQN mi) := by
              simpa using hr
            exact ⟨mkFQN mi, this, List.mem_append_right _ (List.mem_singleton.mpr rfl)⟩
        · rintro ⟨a, ha1, ha2⟩
          rcases List.mem_append.mp ha2 with hl | hr
          · exact Bool.or_eq_true _ _ |>.mpr (Or.inl (hinv.mpr ⟨a, ha1, hl⟩))
          · refine Bool.or_eq_true _ _ |>.mpr (Or.inr ?_)
            have : a = mkFQN mi := List.mem_singleton.mp hr
            subst this
            simpa using ha1
      · have h2' : rok (mkFQN mi) = false := Bool.not_eq_true _ |>.mp h2
        simp only [h2', Bool.not_false, if_pos]
        exact ih rm ul (some CErr.ioErr) hinv

/-- Claim C10: for a LOM that is not itself a copy, `DelExtraCopies`
unlinks, on every available mountpath, exactly the would-be object FQNs
absent from `md.copies` (those whose unlink succeeds); in particular
with empty `md.copies` the LOM's own FQN on its own (available)
mountpath is unlinked — the object file itself; and `removed = true` is
reported iff the optional first argument equals one of the successfully
unlinked FQNs. -/
theorem C10_delExtra (lom : LOM) (avail : List (String × Mpi))
    (mkFQN : Mpi → String) (rok : String → Bool) (args : List String)
    (hnc : IsCopy lom = false) :
    ((DelExtraCopies lom avail mkFQN rok args).2.1 =
      extraTargets lom.copies mkFQN rok avail) ∧
    ((DelExtraCopies lom avail mkFQN rok args).1 = true ↔
      ∃ a, args.head? = some a ∧
        a ∈ (DelExtraCopies lom avail mkFQN rok args).2.1) ∧
    (∀ x, x ∈ extraTargets lom.copies mkFQN rok avail ↔
      ∃ q ∈ avail, mkFQN q.2 = x ∧ mlook lom.copies x = none ∧ rok x = true) ∧
    (lom.copies = [] →
      ∀ q ∈ avail, q.2 = lom.mpathInfo → mkFQN lom.mpathInfo = lom.fqn →
      rok lom.fqn = true →
      lom.fqn ∈ (DelExtraCopies lom avail mkFQN rok args).2.1) := by
  have hw : whingeCopy lom = false := hnc
  have hde : DelExtraCopies lom avail mkFQN rok args =
      delExtraLoop lom.copies mkFQN rok args avail (false, [], none) := by
    unfold DelExtraCopies
    rw [hw]
    simp
  have hchar : ∀ x, x ∈ extraTargets lom.copies mkFQN rok avail ↔
      ∃ q ∈ avail, mkFQN q.2 = x ∧ mlook lom.copies x = none ∧ rok x = true := by
    intro x
    unfold extraTargets
    simp only [List.mem_map, List.mem_filter, Bool.and_eq_true,
      Option.isNone_iff_eq_none]
    constructor
    · rintro ⟨q, ⟨hq, hnone, hrok⟩, hx⟩
      exact ⟨q, hq, hx, hx ▸ hnone, hx ▸ hrok⟩
    · rintro ⟨q, hq, hx, hnone, hrok⟩
      exact ⟨q, ⟨hq, hx ▸ hnone, hx ▸ hrok⟩, hx⟩
  refine ⟨?_, ?_, hchar, ?_⟩
  · rw [hde, delExtraLoop_unlinked]
    simp
  · rw [hde]
    exact delExtraLoop_removed lom.copies mkFQN rok args avail false [] none (by simp)
  · intro hcop q hq hq2 hmk hrok
    rw [hde, delExtraLoop_unlinked]
    simp only [List.nil_append]
    exact (hchar lom.fqn).mpr ⟨q, hq, by rw [hq2, hmk], by rw [hcop]; rfl, hrok⟩

/-- Witness for C10 at concrete inputs. -/
theorem C10_witness :
    "/m0/b/o" ∈
      (DelExtraCopies lomNoCopies [("/m0", mp0), ("/m1", mp1)]
        (fun m => m.path ++ "/b/o") rokAll []).2.1 := by
  exact (C10_delExtra lomNoCopies [("/m0", mp0), ("/m1", mp1)]
      (fun m => m.path ++ "/b/o") rokAll [] (by decide)).2.2.2
    (by decide) ("/m0", mp0) (by decide) (by decide) (by decide) (by decide)

/-! ## Claim C6: the copies-map invariant -/

/-- The observable invariant of `md.copies` for a LOM whose own FQN is
`selfF` on mountpath `selfM`: either empty, or it binds `selfF` to
`selfM` and holds at least two entries. -/
def copiesInv (selfF : String) (selfM : Mpi) (c : MPI) : Prop :=
  c = [] ∨ (mlook c selfF = some selfM ∧ 2 ≤ c.length)

theorem copiesInv_delCopyMd {selfF : String} {selfM : Mpi} {c : MPI} (k : String)
    (hk : k ≠ selfF) (h : copiesInv selfF selfM c) :
    copiesInv selfF selfM (delCopyMd c k) := by
  rcases h with h | ⟨hl, h2⟩
  · subst h
    left
    rfl
  · unfold delCopyMd
    split
    · left
      rfl
    · rename_i hgt
      right
      refine ⟨?_, by omega⟩
      rw [lookup_mdel_ne c k selfF (fun hc => hk hc.symm)]
      exact hl

theorem persistMdOnCopies_ne_self {selfF : String} {pf : String → Bool} {b : String} :
    ∀ {c : MPI}, persistMdOnCopies selfF pf c = some b → b ≠ selfF := by
  intro c
  induction c with
  | nil => intro h; simp [persistMdOnCopies] at h
  | cons p rest ih =>
    intro h
    cases p with
    | mk k m =>
      by_cases hk : (k != selfF && pf k) = true
      · rw [persistMdOnCopies, if_pos hk] at h
        cases h
        exact bne_iff_ne.mp (Bool.and_eq_true _ _ |>.mp hk).1
      · rw [persistMdOnCopies, if_neg hk] at h
        exact ih h

theorem syncLoop_inv (selfF : String) (selfM : Mpi) (pf : String → Bool) :
    ∀ (n : Nat) (c : MPI), c.length ≤ n → copiesInv selfF selfM c →
      copiesInv selfF selfM (syncLoop selfF pf c).1 := by
  intro n
  induction n with
  | zero =>
    intro c hc hinv
    have hc0 : c = [] := List.length_eq_zero.mp (Nat.le_zero.mp hc)
    subst hc0
    rw [syncLoop]
    split
    · exact hinv
    · rename_i bad hbad
      simp [persistMdOnCopies] at hbad
  | succ n ih =>
    intro c hc hinv
    rw [syncLoop]
    split
    · exact hinv
    · rename_i bad hbad
      have hlt : (delCopyMd c bad).length < c.length :=
        delCopyMd_length_lt (persistMdOnCopies_mem hbad)
      simp only []
      exact ih (delCopyMd c bad) (by omega)
        (copiesInv_delCopyMd bad (persistMdOnCopies_ne_self hbad) hinv)

theorem syncMetaWithCopies_inv (lom : LOM) (pf : String → Bool)
    (h : copiesInv lom.fqn lom.mpathInfo lom.copies) :
    copiesInv lom.fqn lom.mpathInfo (syncMetaWithCopies lom pf).1.copies := by
  unfold syncMetaWithCopies
  split
  · exact h
  · split
    · exact h
    · exact syncLoop_inv lom.fqn lom.mpathInfo pf lom.copies.length lom.copies le_rfl h

/-- The two `mins` inserts of `AddCopy` (and of the mirror splice in
`Copy2FQN`) establish the invariant outright when the inserted copy FQN
differs from the object's own. -/
theorem copiesInv_double_mins (selfF : String) (selfM : Mpi) (copyFQN : String)
    (mpi : Mpi) (c : MPI) (hne : copyFQN ≠ selfF) :
    copiesInv selfF selfM (mins selfF selfM (mins copyFQN mpi c)) := by
  right
  refine ⟨lookup_mins_self _ _ _, ?_⟩
  have hmem : (copyFQN, mpi) ∈ mdel (mins copyFQN mpi c) selfF := by
    refine List.mem_filter.mpr ⟨List.mem_cons_self _ _, ?_⟩
    simp [hne]
  have h1 : 1 ≤ (mdel (mins copyFQN mpi c) selfF).length :=
    List.length_pos.mpr (List.ne_nil_of_mem hmem)
  have hlen : (mins selfF selfM (mins copyFQN mpi c)).length =
      (mdel (mins copyFQN mpi c) selfF).length + 1 := rfl
  omega

theorem AddCopy_inv (lom : LOM) (copyFQN : String) (mpi : Mpi) (pf : String → Bool)
    (hne : copyFQN ≠ lom.fqn) :
    copiesInv lom.fqn lom.mpathInfo (AddCopy lom copyFQN mpi pf).1.copies := by
  unfold AddCopy
  exact syncMetaWithCopies_inv _ pf (copiesInv_double_mins _ _ _ _ _ hne)

theorem delCopiesLoop_inv (selfF : String) (selfM : Mpi) :
    ∀ (F : List String) (c : MPI), (∀ f ∈ F, f ≠ selfF) →
      copiesInv selfF selfM c → copiesInv selfF selfM (delCopiesLoop F c).1 := by
  intro F
  induction F with
  | nil => intro c _ h; exact h
  | cons f rest ih =>
    intro c hF h
    unfold delCopiesLoop
    split
    · exact ih (delCopyMd c f)
        (fun g hg => hF g (List.mem_cons_of_mem _ hg))
        (copiesInv_delCopyMd f (hF f (List.mem_cons_self _ _)) h)
    · exact h

theorem DelCopies_inv (lom : LOM) (pf rok : String → Bool) (F : List String)
    (hF : ∀ f ∈ F, f ≠ lom.fqn)
    (h : copiesInv lom.fqn lom.mpathInfo lom.copies) :
    copiesInv lom.fqn lom.mpathInfo (DelCopies lom pf rok F).1.copies := by
  have hloop := delCopiesLoop_inv lom.fqn lom.mpathInfo F lom.copies hF h
  rcases h1 : delCopiesLoop F lom.copies with ⟨c1, e1⟩
  rw [h1] at hloop
  unfold DelCopies
  simp only [h1]
  cases e1 with
  | some er => exact hloop
  | none =>
    rw [syncMetaWithCopies_err_none]
    exact syncMetaWithCopies_inv _ pf hloop

theorem DelAllCopies_inv (lom : LOM) (pf rok : String → Bool)
    (h : copiesInv lom.fqn lom.mpathInfo lom.copies) :
    copiesInv lom.fqn lom.mpathInfo (DelAllCopies lom pf rok).1.copies := by
  unfold DelAllCopies
  refine DelCopies_inv lom pf rok _ ?_ h
  intro f hf
  have := List.of_mem_filter hf
  exact bne_iff_ne.mp this

theorem syncMetaWithCopies_fqn (lom : LOM) (pf : String → Bool) :
    (syncMetaWithCopies lom pf).1.fqn = lom.fqn := by
  unfold syncMetaWithCopies
  split
  · rfl
  · split
    · rfl
    · rfl

theorem syncMetaWithCopies_mpathInfo (lom : LOM) (pf : String → Bool) :
    (syncMetaWithCopies lom pf).1.mpathInfo = lom.mpathInfo := by
  unfold syncMetaWithCopies
  split
  · rfl
  · split
    · rfl
    · rfl

theorem AddCopy_fqn (lom : LOM) (copyFQN : String) (mpi : Mpi) (pf : String → Bool) :
    (AddCopy lom copyFQN mpi pf).1.fqn = lom.fqn := by
  unfold AddCopy
  rw [syncMetaWithCopies_fqn]

theorem AddCopy_mpathInfo (lom : LOM) (copyFQN : String) (mpi : Mpi)
    (pf : String → Bool) :
    (AddCopy lom copyFQN mpi pf).1.mpathInfo = lom.mpathInfo := by
  unfold AddCopy
  rw [syncMetaWithCopies_mpathInfo]

theorem Copy_inv (lom : LOM) (copyFQN : String) (mpi : Mpi) (env : CopyEnv)
    (pf : String → Bool) (hne : copyFQN ≠ lom.fqn)
    (h : copiesInv lom.fqn lom.mpathInfo lom.copies) :
    copiesInv lom.fqn lom.mpathInfo (Copy lom copyFQN mpi env pf).1.copies := by
  have hinv1 := AddCopy_inv lom copyFQN mpi pf hne
  have hfq := AddCopy_fqn lom copyFQN mpi pf
  have hmp := AddCopy_mpathInfo lom copyFQN mpi pf
  unfold Copy
  split
  · exact h
  · split
    · exact h
    · split
      · exact copiesInv_delCopyMd copyFQN hne hinv1
      · have hinv2 := syncMetaWithCopies_inv (AddCopy lom copyFQN mpi pf).1 pf
          (by rw [hfq, hmp]; exact hinv1)
        rw [hfq, hmp] at hinv2
        exact hinv2

theorem copiesInv_double_mins_dst (selfF : String) (selfM : Mpi) (dstFQN : String)
    (dstMpi : Mpi) (c : MPI) (hne : dstFQN ≠ selfF) :
    copiesInv dstFQN dstMpi (mins selfF selfM (mins dstFQN dstMpi c)) := by
  right
  constructor
  · rw [lookup_mins_ne _ selfF dstFQN selfM hne]
    exact lookup_mins_self _ _ _
  · have hmem : (dstFQN, dstMpi) ∈ mdel (mins dstFQN dstMpi c) selfF := by
      refine List.mem_filter.mpr ⟨List.mem_cons_self _ _, ?_⟩
      simp [hne]
    have h1 : 1 ≤ (mdel (mins dstFQN dstMpi c) selfF).length :=
      List.length_pos.mpr (List.ne_nil_of_mem hmem)
    have hlen : (mins selfF selfM (mins dstFQN dstMpi c)).length =
        (mdel (mins dstFQN dstMpi c) selfF).length + 1 := rfl
    omega

theorem Copy2FQN_src_copies (lom : LOM) (dstFQN : String) (dstMpi : Mpi)
    (env : Copy2Env) (pf : String → Bool) :
    (Copy2FQN lom dstFQN dstMpi env pf).1 = lom.copies ∨
    (Copy2FQN lom dstFQN dstMpi env pf).1 =
      (syncMetaWithCopies
        {lom with copies := mins lom.fqn lom.mpathInfo (mins dstFQN dstMpi lom.copies)}
        pf).1.copies := by
  unfold Copy2FQN
  by_cases h1 : env.copyFileOk = true <;> by_cases h2 : env.renameOk = true <;>
    by_cases h3 : env.cksumOk = true <;> by_cases h4 : env.mirror = true <;>
    simp [h1, h2, h3, h4]

theorem Copy2FQN_src_inv (lom : LOM) (dstFQN : String) (dstMpi : Mpi)
    (env : Copy2Env) (pf : String → Bool) (hne : dstFQN ≠ lom.fqn)
    (h : copiesInv lom.fqn lom.mpathInfo lom.copies) :
    copiesInv lom.fqn lom.mpathInfo (Copy2FQN lom dstFQN dstMpi env pf).1 := by
  rcases Copy2FQN_src_copies lom dstFQN dstMpi env pf with he | he
  · rw [he]
    exact h
  · rw [he]
    exact syncMetaWithCopies_inv _ pf (copiesInv_double_mins _ _ _ _ _ hne)

theorem Copy2FQN_dst_inv (lom : LOM) (dstFQN : String) (dstMpi : Mpi)
    (env : Copy2Env) (pf : String → Bool) (hne : dstFQN ≠ lom.fqn)
    (hc : env.copyFileOk = true) (hr : env.renameOk = true)
    (hk : env.cksumOk = true) :
    copiesInv dstFQN dstMpi (Copy2FQN lom dstFQN dstMpi env pf).2.1 := by
  unfold Copy2FQN
  by_cases h4 : env.mirror = true
  · simp only [hc, hr, hk, h4, Bool.not_true, Bool.false_eq_true, if_neg,
      not_false_iff, if_pos, if_true]
    exact copiesInv_double_mins_dst lom.fqn lom.mpathInfo dstFQN dstMpi _ hne
  · simp only [hc, hr, hk, h4, Bool.not_true, Bool.false_eq_true, if_neg,
      not_false_iff, if_false, Bool.false_and]
    left
    simp [h4]

theorem pruneLoop_inv (avail : List (String × Mpi)) (selfF : String) (selfM : Mpi) :
    ∀ (entries : List (String × Mpi)) (c : MPI) (got : Nat),
      copiesInv selfF selfM c →
      (∀ m, (selfF, m) ∈ entries →
        ∃ mp, mlook avail m.path = some mp ∧ mp.waitingDD = false) →
      copiesInv selfF selfM (pruneLoop avail entries c got).1 := by
  intro entries
  induction entries with
  | nil => intro c got h _; exact h
  | cons q rest ih =>
    intro c got h hok
    rcases q with ⟨fqn, mpi⟩
    have hok' : ∀ m, (selfF, m) ∈ rest →
        ∃ mp, mlook avail m.path = some mp ∧ mp.waitingDD = false :=
      fun m hm => hok m (List.mem_cons_of_mem _ hm)
    have hhead : fqn = selfF → ∃ mp, mlook avail mpi.path = some mp ∧
        mp.waitingDD = false := by
      intro hc
      refine hok mpi ?_
      rw [hc]
      exact List.mem_cons_self _ _
    simp only [pruneLoop]
    split
    · rename_i hav
      have hfne : fqn ≠ selfF := by
        intro hc
        obtain ⟨mp, hmp, _⟩ := hhead hc
        rw [hav] at hmp
        cases hmp
      exact ih (delCopyMd c fqn) got (copiesInv_delCopyMd fqn hfne h) hok'
    · rename_i mp hav
      split
      · rename_i hdd
        have hfne : fqn ≠ selfF := by
          intro hc
          obtain ⟨mp2, hmp, hd2⟩ := hhead hc
          rw [hav] at hmp
          injection hmp with hmp
          rw [← hmp] at hd2
          rw [hd2] at hdd
          cases hdd
        exact ih (delCopyMd c fqn) got (copiesInv_delCopyMd fqn hfne h) hok'
      · exact ih c (got + 1) h hok'

theorem ToMpath_inv (lom : LOM) (avail : List (String × Mpi)) (util : String → Int)
    (hrw : Option Mpi) (hwf : WFm lom.copies)
    (h : copiesInv lom.fqn lom.mpathInfo lom.copies)
    (hhrw : ∀ mi, hrw = some mi →
      ∃ mp, mlook avail mi.path = some mp ∧ mp.waitingDD = false) :
    copiesInv lom.fqn lom.mpathInfo (ToMpath lom avail util hrw).1 := by
  cases hrw with
  | none => exact h
  | some hrwMi =>
    simp only [ToMpath]
    split
    · exact h
    · rename_i hpne
      push_neg at hpne
      split
      · exact h
      · have hprune : copiesInv lom.fqn lom.mpathInfo
            (pruneLoop avail lom.copies lom.copies 0).1 := by
          refine pruneLoop_inv avail lom.fqn lom.mpathInfo lom.copies lom.copies 0 h ?_
          intro m hm
          have hself : mlook lom.copies lom.fqn = some lom.mpathInfo := by
            rcases h with h0 | ⟨hl, _⟩
            · rw [h0] at hm
              simp at hm
            · exact hl
          have hmm : m = lom.mpathInfo := WFm_lookup_unique hwf hself hm
          subst hmm
          obtain ⟨mp, hmp, hdd⟩ := hhrw hrwMi rfl
          rw [hpne]
          exact ⟨mp, hmp, hdd⟩
        split
        · exact hprune
        · exact hprune

/-- Claim C6, counterexample to the as-stated invariant: `AddCopy` called
with the LOM's own FQN as the "copy" (reachable through the public
`AddCopy`, or through `Copy` aimed at the object's own mountpath) leaves
`md.copies` with exactly one entry — `syncMetaWithCopies` is a no-op
because `HasCopies()` is false — so a size-1 map is observable. -/
theorem C6_counterexample :
    (AddCopy lomNoCopies "/m0/b/o" mp0 pfNone).1.copies.length = 1 := by
  decide

/-- Claim C6 (amended): the invariant "`md.copies` is empty, or contains
the LOM's own fqn (bound to its own mountpath) with at least 2 entries —
in particular never exactly 1 entry" is preserved by every
copy-management operation provided the copy-FQN arguments differ from
the LOM's own fqn (`AddCopy`'s copy, `DelCopies`' list, `Copy`'s
destination, `Copy2FQN`'s destination) and, for the pruning inside
`ToMpath`, the keys are distinct and the HRW oracle only returns
available non-`WaitingDD` mountpaths.  `Copy2FQN` additionally
establishes the destination clone's own invariant on success. -/
theorem C6_invariant_amended :
    (∀ (selfF : String) (selfM : Mpi) (c : MPI),
      copiesInv selfF selfM c → c.length ≠ 1) ∧
    (∀ (lom : LOM) (copyFQN : String) (mpi : Mpi) (pf : String → Bool),
      copyFQN ≠ lom.fqn →
      copiesInv lom.fqn lom.mpathInfo (AddCopy lom copyFQN mpi pf).1.copies) ∧
    (∀ (lom : LOM) (pf rok : String → Bool) (F : List String),
      (∀ f ∈ F, f ≠ lom.fqn) → copiesInv lom.fqn lom.mpathInfo lom.copies →
      copiesInv lom.fqn lom.mpathInfo (DelCopies lom pf rok F).1.copies) ∧
    (∀ (lom : LOM) (pf rok : String → Bool),
      copiesInv lom.fqn lom.mpathInfo lom.copies →
      copiesInv lom.fqn lom.mpathInfo (DelAllCopies lom pf rok).1.copies) ∧
    (∀ (lom : LOM) (copyFQN : String) (mpi : Mpi) (env : CopyEnv)
      (pf : String → Bool),
      copyFQN ≠ lom.fqn → copiesInv lom.fqn lom.mpathInfo lom.copies →
      copiesInv lom.fqn lom.mpathInfo (Copy lom copyFQN mpi env pf).1.copies) ∧
    (∀ (lom : LOM) (dstFQN : String) (dstMpi : Mpi) (env : Copy2Env)
      (pf : String → Bool),
      dstFQN ≠ lom.fqn → copiesInv lom.fqn lom.mpathInfo lom.copies →
      copiesInv lom.fqn lom.mpathInfo (Copy2FQN lom dstFQN dstMpi env pf).1 ∧
      (env.copyFileOk = true → env.renameOk = true → env.cksumOk = true →
        copiesInv dstFQN dstMpi (Copy2FQN lom dstFQN dstMpi env pf).2.1)) ∧
    (∀ (lom : LOM) (avail : List (String × Mpi)) (util : String → Int)
      (hrw : Option Mpi),
      WFm lom.copies → copiesInv lom.fqn lom.mpathInfo lom.copies →
      (∀ mi, hrw = some mi →
        ∃ mp, mlook avail mi.path = some mp ∧ mp.waitingDD = false) →
      copiesInv lom.fqn lom.mpathInfo (ToMpath lom avail util hrw).1) := by
  refine ⟨?_, ?_, ?_, ?_, ?_, ?_, ?_⟩
  · intro selfF selfM c h
    rcases h with h | ⟨_, h2⟩
    · rw [h]
      simp
    · omega
  · exact fun lom c mpi pf h => AddCopy_inv lom c mpi pf h
  · exact fun lom pf rok F hF h => DelCopies_inv lom pf rok F hF h
  · exact fun lom pf rok h => DelAllCopies_inv lom pf rok h
  · exact fun lom c mpi env pf hne h => Copy_inv lom c mpi env pf hne h
  · intro lom dstFQN dstMpi env pf hne h
    exact ⟨Copy2FQN_src_inv lom dstFQN dstMpi env pf hne h,
      fun hc hr hk => Copy2FQN_dst_inv lom dstFQN dstMpi env pf hne hc hr hk⟩
  · exact fun lom avail util hrw hwf h hh => ToMpath_inv lom avail util hrw hwf h hh

/-- Witness for C6's amended theorem at concrete inputs. -/
theorem C6_witness :
    (AddCopy lomNoCopies "/m1/b/o" mp1 pfNone).1.copies.length ≠ 1 ∧
    copiesInv lomC1.fqn lomC1.mpathInfo
      (DelCopies lomC1 pfNone rokAll ["/m1/b/o"]).1.copies ∧
    copiesInv lomC1.fqn lomC1.mpathInfo
      (ToMpath lomC1 [("/m0", mp0), ("/m1", mp1)] util01 (some mp0)).1 := by
  have hinvC1 : copiesInv lomC1.fqn lomC1.mpathInfo lomC1.copies :=
    Or.inr ⟨by decide, by decide⟩
  have hadd := C6_invariant_amended.2.1 lomNoCopies "/m1/b/o" mp1 pfNone (by decide)
  refine ⟨C6_invariant_amended.1 _ _ _ hadd, ?_, ?_⟩
  · exact C6_invariant_amended.2.2.1 lomC1 pfNone rokAll ["/m1/b/o"]
      (by decide) hinvC1
  · refine C6_invariant_amended.2.2.2.2.2.2 lomC1 [("/m0", mp0), ("/m1", mp1)]
      util01 (some mp0) (by unfold WFm; decide) hinvC1 ?_
    rintro mi hmi
    injection hmi with hmi
    rw [← hmi]
    exact ⟨mp0, by decide, rfl⟩

/-! ## Transport receiver (`src/transport/recv.go`) -/

/-- Big-endian unsigned integer of a byte list (each byte `< 256`),
as `binary.BigEndian.Uint64` reads 8 bytes. -/
def beU64 (bs : List Nat) : Nat := bs.foldl (fun a b => a * 256 + b) 0

/-- The Go `int64` reinterpretation of a wire `uint64` (what `extInt64`
yields): values at or above `2^63` read as negative. -/
def toI64 (n : Nat) : Int := if n < 2 ^ 63 then (n : Int) else (n : Int) - 2 ^ 64

/-- Wire header of a frame (`transport.Header`), the string fields kept
as byte lists. -/
structure Header where
  bucket : List Nat
  objname : List Nat
  opq : List Nat
  dsize : Int
deriving DecidableEq

/-- Modelled from the spec: `Header.IsLast` is not under `src/`; per §6
the last frame of a session is marked by `dsize == 0` and carries no
object payload. -/
def Header.isLast (h : Header) : Bool := h.dsize == 0

/-- Translation of `extString`/`extByte`: a `u64` length prefix followed
by that many bytes.  The Go code indexes the shared, reused header
buffer, so past the current frame's header it would read stale bytes or
panic on an out-of-range slice; the model scopes every read to the
current header's bytes and returns `none` where the source leaves the
header's bytes. -/
def extString (off : Nat) (b : List Nat) : Option (Nat × List Nat) :=
  if off + 8 ≤ b.length then
    if off + 8 + beU64 ((b.drop off).take 8) ≤ b.length then
      some (off + 8 + beU64 ((b.drop off).take 8),
        (b.drop (off + 8)).take (beU64 ((b.drop off).take 8)))
    else none
  else none

/-- Translation of `extInt64` (and `extUint64`'s read, reinterpreted),
under the same scoping as `extString`. -/
def extInt64 (off : Nat) (b : List Nat) : Option (Nat × Int) :=
  if off + 8 ≤ b.length then some (off + 8, toI64 (beU64 ((b.drop off).take 8)))
  else none

/-- Translation of `ExtHeader`: length-prefixed `bucket`, `objname` and
`opaque`, then `sessid` and `dsize` as big-endian `i64`. -/
def ExtHeader (b : List Nat) (hlen : Nat) : Option (Header × Int) := do
  let r1 ← extString 0 (b.take hlen)
  let r2 ← extString r1.1 (b.take hlen)
  let r3 ← extString r2.1 (b.take hlen)
  let r4 ← extInt64 r3.1 (b.take hlen)
  let r5 ← extInt64 r4.1 (b.take hlen)
  pure (⟨r1.2, r2.2, r3.2, r5.2⟩, r4.2)

/-- The error outcomes of one `iterator.next` call.  `eofErr` stands for
`io.EOF` (from the underlying reader or synthesized for a last-frame
header); `truncatedHdr` abstracts the garbage parse of a header read
that came up short (its outcome in Go depends on the stale buffer
contents); `panicked` marks the slice-bound panics of the source
(negative header length, header fields past the buffer). -/
inductive NextErr where
  | eofErr
  | breakage1
  | breakage2
  | truncatedHdr
  | panicked
deriving DecidableEq

/-- What one `iterator.next` call yields: the object (its header; the
reader is the shared request body), the parsed session id, the frame
accounting `hl64`, and the error — the Go named return values. -/
structure NextRes where
  obj : Option Header
  sessid : Int
  hl64 : Int
  err : Option NextErr
deriving DecidableEq

/-- Translation of `iterator.next` on the request body `body` (remaining
bytes), with `maxH = MaxHeaderSize = len(it.headerBuf)` and `hash` the
`xoshiro256.Hash` function (external to the repository, kept abstract).
Returns the `next` result and the bytes left in the body.  Reads follow
a well-behaved reader: a full read when enough bytes remain, else a
short read with EOF. -/
def nextParse (maxH : Nat) (hash : Nat → Nat) (body : List Nat) :
    NextRes × List Nat :=
  if body.length < 16 then (⟨none, 0, 0, some .eofErr⟩, body)
  else
    let hl := beU64 (body.take 8)
    let hlI := toI64 hl
    let chk := beU64 ((body.drop 8).take 8)
    if hlI > (maxH : Int) then (⟨none, 0, hlI, some .breakage1⟩, body.drop 16)
    else if chk ≠ hash hl then (⟨none, 0, hlI, some .breakage2⟩, body.drop 16)
    else if hlI < 0 then (⟨none, 0, hlI + 16, some .panicked⟩, body.drop 16)
    else
      let hlen := hlI.toNat
      let rest := body.drop 16
      if hlen = 0 then (⟨none, 0, hlI + 16, none⟩, rest)
      else if rest.length = 0 then (⟨none, 0, hlI + 16, some .eofErr⟩, rest)
      else if rest.length < hlen then (⟨none, 0, hlI + 16, some .truncatedHdr⟩, [])
      else
        match ExtHeader (rest.take hlen) hlen with
        | none => (⟨none, 0, hlI + 16, some .panicked⟩, rest.drop hlen)
        | some (hdr, sessid) =>
          if hdr.isLast then (⟨none, sessid, hlI + 16, some .eofErr⟩, rest.drop hlen)
          else (⟨some hdr, sessid, hlI + 16, none⟩, rest.drop hlen)

/-- Per-session counters (`transport.Stats`). -/
structure Stats where
  num : Int
  size : Int
  offset : Int
deriving DecidableEq

/-- The session-cleanup timeout (`cleanupTimeout = time.Minute`), in the
same time unit as the model's clock values. -/
def cleanupTimeout : Int := 60

/-- The per-handler receive state: live `sessions`, tombstoned
`oldSessions` (session id to close time), and — as a ghost of the
callback side effects — the list of `(sessid, header)` callback
invocations in order. -/
structure RState where
  sessions : List (Int × Stats)
  oldSessions : List (Int × Int)
  calls : List (Int × Header)
deriving DecidableEq

/-- Start-of-stream: create a fresh Stats entry for an unknown session. -/
def ensureSess (s : Int) (m : List (Int × Stats)) : List (Int × Stats) :=
  match mlook m s with
  | some _ => m
  | none => mins s ⟨0, 0, 0⟩ m

/-- `atomic.AddInt64(&stats.Offset, hl64)`. -/
def bumpOffset (s : Int) (d : Int) (m : List (Int × Stats)) : List (Int × Stats) :=
  match mlook m s with
  | some t => mins s ⟨t.num, t.size, t.offset + d⟩ m
  | none => m

/-- The three counter updates after a callback returns: `num += 1`,
`size += Dsize`, `offset += Dsize`. -/
def bumpObj (s : Int) (d : Int) (m : List (Int × Stats)) : List (Int × Stats) :=
  match mlook m s with
  | some t => mins s ⟨t.num + 1, t.size + d, t.offset + d⟩ m
  | none => m

/-- The delayed cleanup on a terminal error: every `oldSessions` entry
closed more than `cleanupTimeout` ago is deleted from `oldSessions` and
from `sessions`. -/
def sweepOld (now : Int) (old : List (Int × Int)) (sess : List (Int × Stats)) :
    List (Int × Int) × List (Int × Stats) :=
  (old.filter (fun p => !(decide (cleanupTimeout < now - p.2))),
    sess.filter (fun q =>
      !(old.any (fun p => p.1 == q.1 && decide (cleanupTimeout < now - p.2)))))

/-- Translation of the frame loop of `handler.receive` (lines 167–211),
driven by the sequence of `next` results (one `NextRes` per iteration;
the callback drains the object in between, so the iterator events fully
determine the loop).  Per iteration: create the session entry for an
unknown nonzero `sessid`; add `hl64` to `stats.Offset` when nonzero;
for an object frame invoke the callback and bump `num/size/offset`
(Go dereferences the nil `stats` when an object arrives with
`sessid == 0` — the model returns `none` for that panic); on a terminal
error with nonzero `sessid`, sweep `oldSessions` and tombstone the
session at time `now`, then return. -/
def receiveLoop (now : Int) (st : RState) : List NextRes → Option RState
  | [] => some st
  | e :: rest =>
    let s1 := if e.sessid != 0 then ensureSess e.sessid st.sessions else st.sessions
    let s2 := if e.sessid != 0 && e.hl64 != 0 then bumpOffset e.sessid e.hl64 s1 else s1
    match e.obj with
    | some hdr =>
      if e.sessid == 0 then none
      else
        receiveLoop now
          ⟨bumpObj e.sessid hdr.dsize s2, st.oldSessions,
            st.calls ++ [(e.sessid, hdr)]⟩ rest
    | none =>
      match e.err with
      | some _ =>
        if e.sessid != 0 then
          some ⟨(sweepOld now st.oldSessions s2).2,
            mins e.sessid now (sweepOld now st.oldSessions s2).1, st.calls⟩
        else some ⟨s2, st.oldSessions, st.calls⟩
      | none => receiveLoop now ⟨s2, st.oldSessions, st.calls⟩ rest

/-- A frame as the receive-side sees it (its header length, session id
and data size); the spec's §6 wire format determines `hl64 = hlen + 16`
for a parsed frame, and `dsize = 0` marks the session's last frame. -/
structure Frame where
  hlen : Int
  sessid : Int
  dsize : Int
deriving DecidableEq

/-- The header carried by a frame (field bytes irrelevant to stats). -/
def frameHdr (f : Frame) : Header := ⟨[], [], [], f.dsize⟩

/-- The `next` result a well-formed parsed frame produces: a last frame
(`dsize = 0`) yields `err = io.EOF` with no object; any other frame
yields the object and no error; both yield `hl64 = hlen + 16`. -/
def frameEvt (f : Frame) : NextRes :=
  if f.dsize == 0 then ⟨none, f.sessid, f.hlen + 16, some .eofErr⟩
  else ⟨some (frameHdr f), f.sessid, f.hlen + 16, none⟩

/-- Claim C2: with a full 16-byte prefix read, `next` fails with stream
breakage #1 whenever the parsed (signed, as `extInt64` reads it) header
length exceeds `MaxHeaderSize`; when the parsed header length is within
that bound, it fails with stream breakage #2 iff the second big-endian
u64 of the prefix differs from `xoshiro256` of the first u64; in both
failure cases no object reader is returned, and the receive loop invokes
no callback on an objectless iterator result. -/
theorem C2_next_breakage (maxH : Nat) (hash : Nat → Nat) (body : List Nat)
    (hlen16 : 16 ≤ body.length) :
    (toI64 (beU64 (body.take 8)) > (maxH : Int) →
      (nextParse maxH hash body).1.err = some NextErr.breakage1) ∧
    (toI64 (beU64 (body.take 8)) ≤ (maxH : Int) →
      ((nextParse maxH hash body).1.err = some NextErr.breakage2 ↔
        beU64 ((body.drop 8).take 8) ≠ hash (beU64 (body.take 8)))) ∧
    ((nextParse maxH hash body).1.err = some NextErr.breakage1 ∨
        (nextParse maxH hash body).1.err = some NextErr.breakage2 →
      (nextParse maxH hash body).1.obj = none) ∧
    (∀ (now : Int) (st : RState) (s hl : Int) (er : NextErr),
      (receiveLoop now st [⟨none, s, hl, some er⟩]).map RState.calls =
        some st.calls) := by
  have hnl : ¬ body.length < 16 := by omega
  refine ⟨?_, ?_, ?_, ?_⟩
  · intro hgt
    rw [nextParse, if_neg hnl, if_pos hgt]
  · intro hle
    rw [nextParse, if_neg hnl, if_neg (not_lt.mpr hle)]
    by_cases hchk : beU64 ((body.drop 8).take 8) ≠ hash (beU64 (body.take 8))
    · rw [if_pos hchk]
      simpa using hchk
    · rw [if_neg hchk]
      push_neg at hchk
      constructor
      · intro hb
        exfalso
        revert hb
        dsimp only
        repeat' split
        all_goals simp
      · intro hcc
        exact absurd hchk hcc
  · unfold nextParse
    dsimp only
    repeat' split
    all_goals simp
  · intro now st s hl er
    simp only [receiveLoop]
    split <;> rfl

/-- A 16-byte prefix whose header-length word reads 256. -/
def bodyBr1 : List Nat := [0, 0, 0, 0, 0, 0, 1, 0, 0, 0, 0, 0, 0, 0, 0, 0]

/-- Witness for C2 at concrete inputs. -/
theorem C2_witness :
    (nextParse 64 (fun _ => 0) bodyBr1).1.err = some NextErr.breakage1 ∧
    (nextParse 64 (fun _ => 0) bodyBr1).1.obj = none := by
  have h := C2_next_breakage 64 (fun _ => 0) bodyBr1 (by decide)
  have h1 := h.1 (by decide)
  exact ⟨h1, h.2.2.1 (Or.inl h1)⟩

/-! ## Claim C3: per-session statistics of the receive loop -/

/-- Componentwise sum of two Stats values. -/
def statAdd (a b : Stats) : Stats := ⟨a.num + b.num, a.size + b.size, a.offset + b.offset⟩

/-- What one parsed frame adds to the counters of session `s`: nothing
for another session; `hlen + 16` to the offset for `s`'s last frame; one
callback, `dsize` and `hlen + 16 + dsize` for an object frame of `s`. -/
def frameStat (s : Int) (f : Frame) : Stats :=
  if f.sessid = s then
    (if f.dsize = 0 then ⟨0, 0, f.hlen + 16⟩ else ⟨1, f.dsize, f.hlen + 16 + f.dsize⟩)
  else ⟨0, 0, 0⟩

/-- The counters session `s` accumulates over a frame sequence. -/
def sumStats (s : Int) (frames : List Frame) : Stats :=
  frames.foldr (fun f acc => statAdd (frameStat s f) acc) ⟨0, 0, 0⟩

/-- The Stats of session `s` in a sessions map, zero when absent. -/
def statsOf (m : List (Int × Stats)) (s : Int) : Stats := (mlook m s).getD ⟨0, 0, 0⟩

theorem statAdd_zero_left (a : Stats) : statAdd ⟨0, 0, 0⟩ a = a := by
  cases a
  simp [statAdd]

theorem statAdd_zero_right (a : Stats) : statAdd a ⟨0, 0, 0⟩ = a := by
  cases a
  simp [statAdd]

theorem statAdd_assoc (a b c : Stats) :
    statAdd (statAdd a b) c = statAdd a (statAdd b c) := by
  simp only [statAdd, Stats.mk.injEq]
  omega

theorem sumStats_cons (s : Int) (f : Frame) (rest : List Frame) :
    sumStats s (f :: rest) = statAdd (frameStat s f) (sumStats s rest) := rfl

theorem sumStats_append_single (s : Int) (frames : List Frame) (f : Frame) :
    sumStats s (frames ++ [f]) = statAdd (sumStats s frames) (frameStat s f) := by
  induction frames with
  | nil => simp [sumStats, statAdd_zero_left, statAdd_zero_right]
  | cons g rest ih =>
    rw [List.cons_append, sumStats_cons, ih, sumStats_cons, statAdd_assoc]

theorem ensureSess_eq (s : Int) (m : List (Int × Stats)) :
    ((mlook m s).isSome ∧ ensureSess s m = m) ∨
    (mlook m s = none ∧ ensureSess s m = mins s ⟨0, 0, 0⟩ m) := by
  unfold ensureSess
  cases hm : mlook m s
  · exact Or.inr ⟨rfl, rfl⟩
  · exact Or.inl ⟨rfl, rfl⟩

theorem bumpOffset_eq (s d : Int) (m : List (Int × Stats)) :
    (mlook m s = none ∧ bumpOffset s d m = m) ∨
    (∃ t, mlook m s = some t ∧
      bumpOffset s d m = mins s ⟨t.num, t.size, t.offset + d⟩ m) := by
  unfold bumpOffset
  cases hm : mlook m s
  · exact Or.inl ⟨rfl, rfl⟩
  · exact Or.inr ⟨_, rfl, rfl⟩

theorem bumpObj_eq (s d : Int) (m : List (Int × Stats)) :
    (mlook m s = none ∧ bumpObj s d m = m) ∨
    (∃ t, mlook m s = some t ∧
      bumpObj s d m = mins s ⟨t.num + 1, t.size + d, t.offset + d⟩ m) := by
  unfold bumpObj
  cases hm : mlook m s
  · exact Or.inl ⟨rfl, rfl⟩
  · exact Or.inr ⟨_, rfl, rfl⟩

theorem lookup_ensureSess_ne (s s' : Int) (m : List (Int × Stats)) (h : s' ≠ s) :
    mlook (ensureSess s m) s' = mlook m s' := by
  rcases ensureSess_eq s m with ⟨_, he⟩ | ⟨_, he⟩
  · rw [he]
  · rw [he]
    exact lookup_mins_ne m s s' _ h

theorem lookup_bumpOffset_ne (s s' d : Int) (m : List (Int × Stats)) (h : s' ≠ s) :
    mlook (bumpOffset s d m) s' = mlook m s' := by
  rcases bumpOffset_eq s d m with ⟨_, he⟩ | ⟨t, _, he⟩
  · rw [he]
  · rw [he]
    exact lookup_mins_ne m s s' _ h

theorem lookup_bumpObj_ne (s s' d : Int) (m : List (Int × Stats)) (h : s' ≠ s) :
    mlook (bumpObj s d m) s' = mlook m s' := by
  rcases bumpObj_eq s d m with ⟨_, he⟩ | ⟨t, _, he⟩
  · rw [he]
  · rw [he]
    exact lookup_mins_ne m s s' _ h

theorem statsOf_ensureSess (s s' : Int) (m : List (Int × Stats)) :
    statsOf (ensureSess s m) s' = statsOf m s' := by
  rcases ensureSess_eq s m with ⟨_, he⟩ | ⟨hm, he⟩
  · rw [he]
  · rw [he]
    by_cases h : s' = s
    · subst h
      unfold statsOf
      rw [lookup_mins_self, hm]
      rfl
    · unfold statsOf
      rw [lookup_mins_ne m s s' _ h]

theorem lookup_ensureSess_self (s : Int) (m : List (Int × Stats)) :
    (mlook (ensureSess s m) s).isSome := by
  rcases ensureSess_eq s m with ⟨hm, he⟩ | ⟨_, he⟩
  · rw [he]
    exact hm
  · rw [he, lookup_mins_self]
    rfl

theorem statsOf_bumpOffset_self (s d : Int) (m : List (Int × Stats))
    (h : (mlook m s).isSome) :
    statsOf (bumpOffset s d m) s = statAdd (statsOf m s) ⟨0, 0, d⟩ := by
  rcases bumpOffset_eq s d m with ⟨hm, _⟩ | ⟨t, hm, he⟩
  · rw [hm] at h
    cases h
  · rw [he]
    unfold statsOf
    rw [lookup_mins_self, hm]
    simp [statAdd]

theorem lookup_bumpOffset_self (s d : Int) (m : List (Int × Stats))
    (h : (mlook m s).isSome) : (mlook (bumpOffset s d m) s).isSome := by
  rcases bumpOffset_eq s d m with ⟨hm, _⟩ | ⟨t, hm, he⟩
  · rw [hm] at h
    cases h
  · rw [he, lookup_mins_self]
    rfl

theorem statsOf_bumpObj_self (s d : Int) (m : List (Int × Stats))
    (h : (mlook m s).isSome) :
    statsOf (bumpObj s d m) s = statAdd (statsOf m s) ⟨1, d, d⟩ := by
  rcases bumpObj_eq s d m with ⟨hm, _⟩ | ⟨t, hm, he⟩
  · rw [hm] at h
    cases h
  · rw [he]
    unfold statsOf
    rw [lookup_mins_self, hm]
    simp [statAdd]

theorem lookup_bumpObj_self (s d : Int) (m : List (Int × Stats))
    (h : (mlook m s).isSome) : (mlook (bumpObj s d m) s).isSome := by
  rcases bumpObj_eq s d m with ⟨hm, _⟩ | ⟨t, hm, he⟩
  · rw [hm] at h
    cases h
  · rw [he, lookup_mins_self]
    rfl

theorem receiveLoop_obj_step (now : Int) (st : RState) (f : Frame)
    (evts : List NextRes) (hs : f.sessid ≠ 0) (hd : f.dsize ≠ 0) (hh : 0 ≤ f.hlen) :
    receiveLoop now st (frameEvt f :: evts) =
      receiveLoop now
        ⟨bumpObj f.sessid f.dsize
            (bumpOffset f.sessid (f.hlen + 16) (ensureSess f.sessid st.sessions)),
          st.oldSessions, st.calls ++ [(f.sessid, frameHdr f)]⟩ evts := by
  have hd' : (f.dsize == 0) = false := by simpa using hd
  have hs1 : (f.sessid != 0) = true := by simpa using hs
  have hs0 : (f.sessid == 0) = false := by simpa using hs
  have hh1 : (f.hlen + 16 != 0) = true := by
    have h0 : f.hlen + 16 ≠ 0 := by omega
    simpa using h0
  rw [frameEvt, if_neg (by simp [hd'])]
  simp only [receiveLoop, hs1, hs0, hh1, Bool.and_self, if_true, Bool.false_eq_true,
    if_false]
  rfl

theorem receiveLoop_last_step (now : Int) (st : RState) (f : Frame)
    (hs : f.sessid ≠ 0) (hd : f.dsize = 0) (hh : 0 ≤ f.hlen) :
    receiveLoop now st [frameEvt f] =
      some ⟨(sweepOld now st.oldSessions
            (bumpOffset f.sessid (f.hlen + 16) (ensureSess f.sessid st.sessions))).2,
          mins f.sessid now (sweepOld now st.oldSessions
            (bumpOffset f.sessid (f.hlen + 16) (ensureSess f.sessid st.sessions))).1,
          st.calls⟩ := by
  have hd' : (f.dsize == 0) = true := by simpa using hd
  have hs1 : (f.sessid != 0) = true := by simpa using hs
  have hh1 : (f.hlen + 16 != 0) = true := by
    have h0 : f.hlen + 16 ≠ 0 := by omega
    simpa using h0
  rw [frameEvt, if_pos hd']
  simp only [receiveLoop, hs1, hh1, Bool.and_self, if_true]

theorem receiveLoop_body (now : Int) :
    ∀ (body : List Frame) (st : RState),
      (∀ f ∈ body, f.sessid ≠ 0 ∧ f.dsize ≠ 0 ∧ 0 ≤ f.hlen) →
      ∃ stX : RState,
        (∀ ys, receiveLoop now st (body.map frameEvt ++ ys) =
          receiveLoop now stX ys) ∧
        (∀ s, statsOf stX.sessions s =
          statAdd (statsOf st.sessions s) (sumStats s body)) ∧
        (∀ s, (mlook stX.sessions s).isSome ↔
          ((mlook st.sessions s).isSome ∨ s ∈ body.map Frame.sessid)) ∧
        stX.oldSessions = st.oldSessions ∧
        stX.calls = st.calls ++ body.map (fun f => (f.sessid, frameHdr f)) := by
  intro body
  induction body with
  | nil =>
    intro st hb
    refine ⟨st, fun ys => rfl, ?_, ?_, rfl, by simp⟩
    · intro s
      have : sumStats s [] = ⟨0, 0, 0⟩ := rfl
      rw [this, statAdd_zero_right]
    · intro s
      simp
  | cons f rest ih =>
    intro st hb
    obtain ⟨hfs, hfd, hfh⟩ := hb f (List.mem_cons_self _ _)
    obtain ⟨stX, hcomp, hstats, hsome, hold, hcalls⟩ :=
      ih ⟨bumpObj f.sessid f.dsize
            (bumpOffset f.sessid (f.hlen + 16) (ensureSess f.sessid st.sessions)),
          st.oldSessions, st.calls ++ [(f.sessid, frameHdr f)]⟩
        (fun g hg => hb g (List.mem_cons_of_mem _ hg))
    have hsome1 : (mlook (ensureSess f.sessid st.sessions) f.sessid).isSome :=
      lookup_ensureSess_self f.sessid st.sessions
    have hsome2 := lookup_bumpOffset_self f.sessid (f.hlen + 16) _ hsome1
    refine ⟨stX, ?_, ?_, ?_, hold, ?_⟩
    · intro ys
      rw [List.map_cons, List.cons_append,
        receiveLoop_obj_step now st f _ hfs hfd hfh]
      exact hcomp ys
    · intro s
      rw [hstats s, sumStats_cons]
      have hstep : statsOf (bumpObj f.sessid f.dsize
          (bumpOffset f.sessid (f.hlen + 16) (ensureSess f.sessid st.sessions))) s =
          statAdd (statsOf st.sessions s) (frameStat s f) := by
        by_cases hsf : s = f.sessid
        · subst hsf
          rw [statsOf_bumpObj_self _ _ _ hsome2, statsOf_bumpOffset_self _ _ _ hsome1,
            statsOf_ensureSess]
          have hfr : frameStat f.sessid f = ⟨1, f.dsize, f.hlen + 16 + f.dsize⟩ := by
            unfold frameStat
            rw [if_pos rfl, if_neg hfd]
          rw [hfr]
          simp only [statAdd, Stats.mk.injEq]
          omega
        · have hlk : mlook (bumpObj f.sessid f.dsize (bumpOffset f.sessid (f.hlen + 16)
              (ensureSess f.sessid st.sessions))) s = mlook st.sessions s := by
            rw [lookup_bumpObj_ne _ _ _ _ hsf, lookup_bumpOffset_ne _ _ _ _ hsf,
              lookup_ensureSess_ne _ _ _ hsf]
          have hfr : frameStat s f = ⟨0, 0, 0⟩ := by
            unfold frameStat
            rw [if_neg (fun hc => hsf hc.symm)]
          rw [hfr, statAdd_zero_right]
          unfold statsOf
          rw [hlk]
      rw [hstep, statAdd_assoc]
    · intro s
      rw [hsome s]
      by_cases hsf : s = f.sessid
      · subst hsf
        simp only [List.map_cons, List.mem_cons]
        constructor
        · intro _
          exact Or.inr (Or.inl trivial)
        · intro _
          exact Or.inl (lookup_bumpObj_self _ _ _ hsome2)
      · rw [lookup_bumpObj_ne _ _ _ _ hsf, lookup_bumpOffset_ne _ _ _ _ hsf,
          lookup_ensureSess_ne _ _ _ hsf]
        simp only [List.map_cons, List.mem_cons]
        constructor
        · rintro (h | h)
          · exact Or.inl h
          · exact Or.inr (Or.inr h)
        · rintro (h | h | h)
          · exact Or.inl h
          · exact absurd h hsf
          · exact Or.inr h
    · rw [hcalls]
      simp

theorem sumStats_eq (s : Int) :
    ∀ frames : List Frame,
      sumStats s frames =
        ⟨((frames.filter (fun f => f.sessid == s && f.dsize != 0)).length : Int),
          ((frames.filter (fun f => f.sessid == s)).map Frame.dsize).sum,
          ((frames.filter (fun f => f.sessid == s)).map
            (fun f => f.hlen + 16 + f.dsize)).sum⟩ := by
  intro frames
  induction frames with
  | nil => rfl
  | cons f rest ih =>
    rw [sumStats_cons, ih]
    by_cases h1 : f.sessid = s
    · by_cases h2 : f.dsize = 0
      · have hc1 : (f.sessid == s && f.dsize != 0) = false := by simp [h1, h2]
        have hfr : frameStat s f = ⟨0, 0, f.hlen + 16⟩ := by
          unfold frameStat
          rw [if_pos h1, if_pos h2]
        rw [hfr]
        simp [List.filter_cons, hc1, h1, h2, statAdd, Stats.mk.injEq]
      · have hc1 : (f.sessid == s && f.dsize != 0) = true := by simp [h1, h2]
        have hfr : frameStat s f = ⟨1, f.dsize, f.hlen + 16 + f.dsize⟩ := by
          unfold frameStat
          rw [if_pos h1, if_neg h2]
        rw [hfr]
        simp [List.filter_cons, hc1, h1, statAdd, Stats.mk.injEq]
        rw [if_neg h2, List.length_cons]
        push_cast
        omega
    · have hc1 : (f.sessid == s && f.dsize != 0) = false := by simp [h1]
      have hc2 : (f.sessid == s) = false := by simp [h1]
      have hfr : frameStat s f = ⟨0, 0, 0⟩ := by
        unfold frameStat
        rw [if_neg h1]
      rw [hfr, statAdd_zero_left]
      simp [List.filter_cons, hc1, hc2]

theorem mlook_eq_some_statsOf (m : List (Int × Stats)) (s : Int)
    (h : (mlook m s).isSome) : mlook m s = some (statsOf m s) := by
  unfold statsOf
  cases hm : mlook m s
  · rw [hm] at h
    cases h
  · rfl

theorem calls_filter_count (s : Int) :
    ∀ body : List Frame,
      ((body.map (fun f => (f.sessid, frameHdr f))).filter
        (fun c => c.1 == s)).length =
      (body.filter (fun f => f.sessid == s)).length := by
  intro body
  induction body with
  | nil => rfl
  | cons f rest ih =>
    simp only [List.map_cons, List.filter_cons]
    by_cases h : f.sessid = s
    · have h' : (f.sessid == s) = true := by simpa using h
      simp only [h', if_pos, List.length_cons, ih]
    · have h' : (f.sessid == s) = false := by simpa using h
      simp only [h', Bool.false_eq_true, if_neg, not_false_iff, ih]

theorem filter_congr_mem {α : Type} {p q : α → Bool} :
    ∀ l : List α, (∀ a ∈ l, p a = q a) → l.filter p = l.filter q := by
  intro l
  induction l with
  | nil => intro _; rfl
  | cons a rest ih =>
    intro h
    rw [List.filter_cons, List.filter_cons, h a (List.mem_cons_self _ _),
      ih (fun b hb => h b (List.mem_cons_of_mem _ hb))]

/-- Claim C3: for a session `s ≠ 0` of a single receive request whose
parsed frames are the object frames `body` followed by a terminating
last frame: after the loop, the session's `Num` equals the number of
callback invocations for `s` (equivalently the number of `s` object
frames), `Size` equals the sum of `Dsize` over the objects delivered to
the callback for `s`, and `Offset` equals the sum of `hlen + 16 + Dsize`
over all of the session's frames, the last one included. -/
theorem C3_receive_stats (now : Int) (body : List Frame) (last : Frame) (s : Int)
    (hs : s ≠ 0)
    (hb : ∀ f ∈ body, f.sessid ≠ 0 ∧ f.dsize ≠ 0 ∧ 0 ≤ f.hlen)
    (hl1 : last.sessid ≠ 0) (hl2 : last.dsize = 0) (hl3 : 0 ≤ last.hlen)
    (hocc : s ∈ (body ++ [last]).map Frame.sessid) :
    ∃ stF : RState,
      receiveLoop now ⟨[], [], []⟩ ((body ++ [last]).map frameEvt) = some stF ∧
      ∃ stt : Stats, mlook stF.sessions s = some stt ∧
        stt.num = ((stF.calls.filter (fun c => c.1 == s)).length : Int) ∧
        stt.num = ((body.filter (fun f => f.sessid == s)).length : Int) ∧
        stt.size = ((body.filter (fun f => f.sessid == s)).map Frame.dsize).sum ∧
        stt.offset = (((body ++ [last]).filter (fun f => f.sessid == s)).map
          (fun f => f.hlen + 16 + f.dsize)).sum := by
  obtain ⟨stX, hcomp, hstats, hsome, hold, hcalls⟩ :=
    receiveLoop_body now body ⟨[], [], []⟩ hb
  have hmap : (body ++ [last]).map frameEvt =
      body.map frameEvt ++ [frameEvt last] := by simp
  have hloop : receiveLoop now ⟨[], [], []⟩ ((body ++ [last]).map frameEvt) =
      receiveLoop now stX [frameEvt last] := by
    rw [hmap]
    exact hcomp [frameEvt last]
  rw [hloop, receiveLoop_last_step now stX last hl1 hl2 hl3]
  set m2 := bumpOffset last.sessid (last.hlen + 16) (ensureSess last.sessid stX.sessions)
    with hm2
  have hswp : sweepOld now stX.oldSessions m2 = ([], m2) := by
    rw [hold]
    unfold sweepOld
    simp
  rw [hswp]
  have hstX : statsOf stX.sessions s = sumStats s body := by
    rw [hstats s]
    have h0 : statsOf (⟨[], [], []⟩ : RState).sessions s = ⟨0, 0, 0⟩ := rfl
    rw [h0, statAdd_zero_left]
  have hlkne : ∀ s', s' ≠ last.sessid → mlook m2 s' = mlook stX.sessions s' := by
    intro s' hne
    rw [hm2, lookup_bumpOffset_ne _ _ _ _ hne, lookup_ensureSess_ne _ _ _ hne]
  have hm2some : (mlook m2 s).isSome := by
    by_cases hsl : s = last.sessid
    · rw [hm2, hsl]
      exact lookup_bumpOffset_self _ _ _ (lookup_ensureSess_self _ _)
    · rw [hlkne s hsl]
      refine (hsome s).mpr (Or.inr ?_)
      rw [List.map_append] at hocc
      rcases List.mem_append.mp hocc with h | h
      · exact h
      · simp only [List.map_cons, List.map_nil, List.mem_singleton] at h
        exact absurd h hsl
  have hstm2 : statsOf m2 s = statAdd (sumStats s body) (frameStat s last) := by
    by_cases hsl : s = last.sessid
    · have h1 : statsOf m2 s = statAdd (statsOf stX.sessions s)
          ⟨0, 0, last.hlen + 16⟩ := by
        rw [hm2, hsl]
        rw [statsOf_bumpOffset_self _ _ _ (lookup_ensureSess_self _ _),
          statsOf_ensureSess]
      have hfr : frameStat s last = ⟨0, 0, last.hlen + 16⟩ := by
        unfold frameStat
        rw [if_pos hsl.symm, if_pos hl2]
      rw [h1, hstX, hfr]
    · have h1 : statsOf m2 s = statsOf stX.sessions s := by
        unfold statsOf
        rw [hlkne s hsl]
      have hfr : frameStat s last = ⟨0, 0, 0⟩ := by
        unfold frameStat
        rw [if_neg (fun hc => hsl hc.symm)]
      rw [h1, hstX, hfr, statAdd_zero_right]
  have htot : statsOf m2 s = sumStats s (body ++ [last]) := by
    rw [hstm2, sumStats_append_single]
  have hlastc : (last.sessid == s && last.dsize != 0) = false := by
    simp [hl2]
  have hbodyc : body.filter (fun f => f.sessid == s && f.dsize != 0) =
      body.filter (fun f => f.sessid == s) := by
    refine filter_congr_mem body ?_
    intro f hf
    have hd := (hb f hf).2.1
    simp [hd]
  have hfilter1 : (body ++ [last]).filter (fun f => f.sessid == s && f.dsize != 0) =
      body.filter (fun f => f.sessid == s) := by
    have hone : [last].filter (fun f => f.sessid == s && f.dsize != 0) = [] := by
      rw [List.filter_cons, hlastc]
      simp
    rw [List.filter_append, hone, List.append_nil, hbodyc]
  have hsize1 : (((body ++ [last]).filter (fun f => f.sessid == s)).map
      Frame.dsize).sum = ((body.filter (fun f => f.sessid == s)).map Frame.dsize).sum := by
    rw [List.filter_append, List.map_append, List.sum_append]
    by_cases hsl : last.sessid = s
    · have hone : [last].filter (fun f => f.sessid == s) = [last] := by
        rw [List.filter_cons]
        simp [hsl]
      rw [hone]
      simp [hl2]
    · have hone : [last].filter (fun f => f.sessid == s) = [] := by
        rw [List.filter_cons]
        simp [hsl]
      rw [hone]
      simp
  refine ⟨⟨m2, mins last.sessid now [], stX.calls⟩, rfl,
    statsOf m2 s, mlook_eq_some_statsOf m2 s hm2some, ?_, ?_, ?_, ?_⟩
  · show (statsOf m2 s).num = ((stX.calls.filter (fun c => c.1 == s)).length : Int)
    rw [hcalls, List.nil_append, calls_filter_count, htot, sumStats_eq, hfilter1]
  · rw [htot, sumStats_eq, hfilter1]
  · rw [htot, sumStats_eq]
    exact hsize1
  · rw [htot, sumStats_eq]

/-- Witness for C3 at concrete inputs: one object frame and the last
frame of session 7. -/
theorem C3_witness :
    ∃ stF : RState,
      receiveLoop 0 ⟨[], [], []⟩
        ((([⟨5, 7, 3⟩] : List Frame) ++ [(⟨4, 7, 0⟩ : Frame)]).map frameEvt) = some stF ∧
      ∃ stt : Stats, mlook stF.sessions 7 = some stt ∧
        stt.num = ((stF.calls.filter (fun c => c.1 == 7)).length : Int) ∧
        stt.num = ((([⟨5, 7, 3⟩] : List Frame).filter
          (fun f => f.sessid == 7)).length : Int) ∧
        stt.size = ((([⟨5, 7, 3⟩] : List Frame).filter
          (fun f => f.sessid == 7)).map Frame.dsize).sum ∧
        stt.offset = (((([⟨5, 7, 3⟩] : List Frame) ++ [(⟨4, 7, 0⟩ : Frame)]).filter
          (fun f => f.sessid == 7)).map (fun f => f.hlen + 16 + f.dsize)).sum :=
  C3_receive_stats 0 [⟨5, 7, 3⟩] (⟨4, 7, 0⟩ : Frame) 7 (by decide) (by decide) (by decide)
    (by decide) (by decide) (by decide)

/-! ## Claim C8: old-session garbage collection -/

theorem mlook_none_of_not_mem_keys {α β : Type} [BEq α] [LawfulBEq α]
    {m : List (α × β)} {k : α} (h : k ∉ m.map Prod.fst) : mlook m k = none := by
  induction m with
  | nil => rfl
  | cons p rest ih =>
    have hp : p.1 ≠ k := fun hc => h (List.mem_map.mpr ⟨p, List.mem_cons_self _ _, hc⟩)
    rw [mlook_cons_ne _ _ _ hp]
    exact ih (fun hc => h (by simp [hc]))

theorem mlook_filter_none {α β : Type} [BEq α] [LawfulBEq α]
    {m : List (α × β)} {k : α} {v : β} {keep : α × β → Bool}
    (hw : WFm m) (hl : mlook m k = some v) (hk : keep (k, v) = false) :
    mlook (m.filter keep) k = none := by
  induction m with
  | nil => simp at hl
  | cons p rest ih =>
    have hw' : WFm rest := (List.nodup_cons.mp hw).2
    by_cases hp : p.1 = k
    · have hv : p.2 = v := by
        rw [mlook_cons, if_pos (by simp [hp])] at hl
        injection hl
      have hpv : p = (k, v) := by
        cases p
        simp only [Prod.mk.injEq]
        exact ⟨hp, hv⟩
      have hrest : mlook (rest.filter keep) k = none := by
        refine mlook_none_of_not_mem_keys ?_
        intro hc
        have hkeys : k ∈ rest.map Prod.fst := by
          rcases List.mem_map.mp hc with ⟨q, hq, hqk⟩
          exact List.mem_map.mpr ⟨q, List.mem_of_mem_filter hq, hqk⟩
        exact (List.nodup_cons.mp hw).1 (hp ▸ hkeys)
      rw [List.filter_cons, hpv, hk]
      simpa using hrest
    · rw [List.filter_cons]
      by_cases hkp : keep p = true
      · rw [if_pos hkp, mlook_cons_ne _ _ _ hp]
        exact ih hw' (by rwa [mlook_cons_ne _ _ _ hp] at hl)
      · rw [if_neg hkp]
        exact ih hw' (by rwa [mlook_cons_ne _ _ _ hp] at hl)

theorem mlook_filter_key_none {α β : Type} [BEq α] [LawfulBEq α]
    {m : List (α × β)} {k : α} {pred : α × β → Bool}
    (h : ∀ v, pred (k, v) = false) : mlook (m.filter pred) k = none := by
  induction m with
  | nil => rfl
  | cons p rest ih =>
    rw [List.filter_cons]
    by_cases hp : p.1 = k
    · have hpk : p = (k, p.2) := by
        cases p
        simp only [Prod.mk.injEq]
        exact ⟨hp, trivial⟩
      rw [hpk, h p.2]
      simpa using ih
    · by_cases hkp : pred p = true
      · rw [if_pos hkp, mlook_cons_ne _ _ _ hp]
        exact ih
      · rw [if_neg hkp]
        exact ih

/-- Claim C8, counterexample to the "after the next frame arrival on any
session" wording: with `old_sessions = {7 ↦ 0}` and the clock at 100
(well past `cleanupTimeout`), an object frame arriving on session 8 is
processed without any sweep, and the stale session-7 entry is still in
`old_sessions` afterwards. -/
theorem C8_counterexample :
    (receiveLoop 100 ⟨[], [(7, 0)], []⟩ [frameEvt ⟨5, 8, 3⟩]).map
      (fun st => mlook st.oldSessions 7) = some (some 0) := by
  decide

/-- Claim C8 (amended): when the receive loop ends with a terminal
frame-parse result on a session with `sessid != 0`, that sessid is
recorded in `old_sessions` at the current time, every `old_sessions`
entry strictly older than `cleanupTimeout` is deleted from both
`old_sessions` and `sessions`, and every surviving `old_sessions` entry
is at most `cleanupTimeout` old.  Stale entries are removed only at such
terminations, not at ordinary frame arrivals (see the counterexample). -/
theorem C8_gc_amended (now : Int) (st : RState) (s hl : Int) (er : NextErr)
    (hs : s ≠ 0) (hw : WFm st.oldSessions) :
    ∃ stT : RState, receiveLoop now st [⟨none, s, hl, some er⟩] = some stT ∧
      mlook stT.oldSessions s = some now ∧
      (∀ id t, (id, t) ∈ stT.oldSessions → now - t ≤ cleanupTimeout) ∧
      (∀ id t, mlook st.oldSessions id = some t → cleanupTimeout < now - t →
        id ≠ s → mlook stT.oldSessions id = none ∧ mlook stT.sessions id = none) := by
  have hsb : (s != 0) = true := by simpa using hs
  have hct : cleanupTimeout = 60 := rfl
  have hloop : ∃ s2, receiveLoop now st [⟨none, s, hl, some er⟩] =
      some ⟨(sweepOld now st.oldSessions s2).2,
        mins s now (sweepOld now st.oldSessions s2).1, st.calls⟩ := by
    by_cases hhl : (hl != 0) = true
    · exact ⟨bumpOffset s hl (ensureSess s st.sessions), by simp [receiveLoop, hsb, hhl]⟩
    · exact ⟨ensureSess s st.sessions, by simp [receiveLoop, hsb, hhl]⟩
  obtain ⟨s2, hloop⟩ := hloop
  refine ⟨_, hloop, lookup_mins_self _ _ _, ?_, ?_⟩
  · intro id t hmem
    have hmem' : (id, t) ∈ (s, now) ::
        mdel ((sweepOld now st.oldSessions s2).1) s := hmem
    rcases List.mem_cons.mp hmem' with h1 | h2
    · have ht : t = now := congrArg Prod.snd h1
      omega
    · have h3 : (id, t) ∈ st.oldSessions.filter
          (fun p => !(decide (cleanupTimeout < now - p.2))) :=
        List.mem_of_mem_filter h2
      have h4 := List.of_mem_filter h3
      simp only [Bool.not_eq_true', decide_eq_false_iff_not, not_lt] at h4
      omega
  · intro id t hlk hstale hne
    constructor
    · rw [lookup_mins_ne _ _ _ _ hne]
      exact mlook_filter_none hw hlk (by simp [hstale])
    · refine mlook_filter_key_none ?_
      intro v
      have hmem := mem_of_mlook_eq_some hlk
      have hany : st.oldSessions.any
          (fun p => p.1 == id && decide (cleanupTimeout < now - p.2)) = true :=
        List.any_eq_true.mpr ⟨(id, t), hmem, by simp [hstale]⟩
      simp [hany]

/-- Witness for C8's amended theorem at concrete inputs. -/
theorem C8_witness :
    ∃ stT : RState,
      receiveLoop 100 ⟨[(7, ⟨3, 9, 9⟩), (8, ⟨1, 2, 3⟩)], [(7, 0)], []⟩
        [⟨none, 8, 21, some NextErr.eofErr⟩] = some stT ∧
      mlook stT.oldSessions 8 = some 100 ∧
      (∀ id t, (id, t) ∈ stT.oldSessions → 100 - t ≤ cleanupTimeout) ∧
      (∀ id t, mlook ([(7, 0)] : List (Int × Int)) id = some t →
        cleanupTimeout < 100 - t → id ≠ 8 →
        mlook stT.oldSessions id = none ∧ mlook stT.sessions id = none) :=
  C8_gc_amended 100 ⟨[(7, ⟨3, 9, 9⟩), (8, ⟨1, 2, 3⟩)], [(7, 0)], []⟩ 8 21
    NextErr.eofErr (by decide) (by unfold WFm; decide)

/-! ## Claim C7: the async list-objects start path (`src/ais/tgtasync.go`) -/

/-- Task-layer errors: `bcklist.ErrGone` distinguished from any other
error text. -/
inductive BLErr where
  | gone
  | other (msg : String)
deriving DecidableEq

/-- Outcomes of the external calls made by the TaskStart / list-objects
arm of `doAsync`: the two possible `RenewBckListNewXact` calls, and for
each — when it succeeds and `IncPending` runs — the `waitBckListResp`
outcome `(status, err)`. -/
structure DoAsyncIn where
  renew1 : Option BLErr
  wait1 : Int × Option BLErr
  renew2 : Option BLErr
  wait2 : Int × Option BLErr
deriving DecidableEq

/-- The HTTP outcome written to the client: 202 Accepted, or
`invalmsghdlr` with the given status. -/
inductive HResp where
  | accepted
  | httpError (status : Int)
deriving DecidableEq

/-- Translation of the `cmn.TaskStart` / `cmn.ActListObjects` arm of
`doAsync` (lines 77–114): `status` starts at 500; renew, and on success
increment the pending count and wait; if the resulting error is
`bcklist.ErrGone`, run the renew-increment-wait sequence once more; then
202 Accepted on nil error, else an HTTP error carrying `status`.  The
second component counts the renew-increment-wait sequences executed. -/
def doAsyncListStart (i : DoAsyncIn) : HResp × Nat :=
  let status0 : Int := 500
  let st1 := if i.renew1 = none then i.wait1.1 else status0
  let e1 := if i.renew1 = none then i.wait1.2 else i.renew1
  if e1 = some BLErr.gone then
    let st2 := if i.renew2 = none then i.wait2.1 else st1
    let e2 := if i.renew2 = none then i.wait2.2 else i.renew2
    if e2 = none then (HResp.accepted, 2) else (HResp.httpError st2, 2)
  else if e1 = none then (HResp.accepted, 1)
  else (HResp.httpError st1, 1)

/-- Claim C7: on the taskAction=start / action=list-objects path, if the
first renew-increment-wait sequence ends in `ErrGone` the dispatcher
runs the sequence exactly once more and never a third time (the count is
2 on the ErrGone path, 1 otherwise, and never exceeds 2); if the retry's
wait also fails, the client receives an HTTP error carrying the
task-reported status; on overall success the response is 202
Accepted. -/
theorem C7_doAsync_retry (i : DoAsyncIn) :
    ((doAsyncListStart i).2 ≤ 2) ∧
    ((if i.renew1 = none then i.wait1.2 else i.renew1) = some BLErr.gone →
      (doAsyncListStart i).2 = 2) ∧
    ((if i.renew1 = none then i.wait1.2 else i.renew1) ≠ some BLErr.gone →
      (doAsyncListStart i).2 = 1) ∧
    ((if i.renew1 = none then i.wait1.2 else i.renew1) = some BLErr.gone →
      i.renew2 = none → i.wait2.2 ≠ none →
      (doAsyncListStart i).1 = HResp.httpError i.wait2.1) ∧
    ((if i.renew1 = none then i.wait1.2 else i.renew1) = some BLErr.gone →
      i.renew2 = none → i.wait2.2 = none →
      (doAsyncListStart i).1 = HResp.accepted) ∧
    ((if i.renew1 = none then i.wait1.2 else i.renew1) = none →
      (doAsyncListStart i).1 = HResp.accepted) := by
  refine ⟨?_, ?_, ?_, ?_, ?_, ?_⟩
  · by_cases hE : (if i.renew1 = none then i.wait1.2 else i.renew1) = some BLErr.gone
    · by_cases h2 : (if i.renew2 = none then i.wait2.2 else i.renew2) = none
      · simp [doAsyncListStart, hE, h2]
      · simp [doAsyncListStart, hE, h2]
    · by_cases h1 : (if i.renew1 = none then i.wait1.2 else i.renew1) = none
      · simp [doAsyncListStart, hE, h1]
      · simp [doAsyncListStart, hE, h1]
  · intro hE
    by_cases h2 : (if i.renew2 = none then i.wait2.2 else i.renew2) = none
    · simp [doAsyncListStart, hE, h2]
    · simp [doAsyncListStart, hE, h2]
  · intro hE
    by_cases h1 : (if i.renew1 = none then i.wait1.2 else i.renew1) = none
    · simp [doAsyncListStart, hE, h1]
    · simp [doAsyncListStart, hE, h1]
  · intro hE h2 h3
    simp [doAsyncListStart, hE, h2, h3]
  · intro hE h2 h3
    simp [doAsyncListStart, hE, h2, h3]
  · intro hE
    simp [doAsyncListStart, hE]

/-- Witness for C7 at concrete inputs: first wait reports ErrGone, the
retry succeeds. -/
theorem C7_witness :
    (doAsyncListStart ⟨none, (410, some BLErr.gone), none, (200, none)⟩).2 = 2 ∧
    (doAsyncListStart ⟨none, (410, some BLErr.gone), none, (200, none)⟩).1 =
      HResp.accepted := by
  constructor
  · exact (C7_doAsync_retry ⟨none, (410, some BLErr.gone), none, (200, none)⟩).2.1
      (by decide)
  · exact (C7_doAsync_retry
      ⟨none, (410, some BLErr.gone), none, (200, none)⟩).2.2.2.2.1
      (by decide) (by decide) (by decide)
